import Mathlib

/-!
Verification of the rescue-robot grid simulation (`sim/coop.py`, `sim/single.py`).

The embedding models grid positions as pairs of integers, the ground-truth
grid and the robots' known maps as total functions `Pos → Int` over the cell
codes of the source (`UNKNOWN = -2`, `TRAVERSED = -1`, `FREE = 0`,
`OBSTACLE = 1`, `VICTIM = 2`, `ROBOT = 3`), the victim registry as a
`Finset Pos`, and the per-tick `move` decision procedure of each variant as a
pure function taking the shuffled neighbour order as an explicit parameter.
The breadth-first frontier searches of the two variants are embedded as
fuelled loop functions and verified against a mathematical notion of
passable chains and hop-count reachability.
-/

/-- Grid coordinates `(row, col)`, as in the source. Integers, since the
Python code forms `r - 1`, `c - 1` before bounds checks. -/
abbrev Pos : Type := Int × Int

/-- Cell code for an unexplored cell of a known map. -/
def UNKNOWN : Int := -2

/-- Cell code for a cell the owning robot has occupied. -/
def TRAVERSED : Int := -1

/-- Cell code for free space. -/
def FREE : Int := 0

/-- Cell code for a wall. -/
def OBSTACLE : Int := 1

/-- Cell code for a person to rescue (the spec's `Target`). -/
def VICTIM : Int := 2

/-- Cell code marking a robot start cell in the loaded grid. -/
def ROBOT : Int := 3

/-- `0 <= r < rows and 0 <= c < cols`, the bounds check of the source. -/
def inB (rows cols : Nat) (p : Pos) : Bool :=
  decide (0 ≤ p.1) && decide (p.1 < (rows : Int)) &&
  decide (0 ≤ p.2) && decide (p.2 < (cols : Int))

/-- The neighbour list `[(r+1,c), (r-1,c), (r,c+1), (r,c-1)]` used both by
`update_known_map` and by the shuffled `options` of `move`. -/
def options (p : Pos) : List Pos :=
  [(p.1 + 1, p.2), (p.1 - 1, p.2), (p.1, p.2 + 1), (p.1, p.2 - 1)]

/-- The BFS direction offsets `[(-1,0), (1,0), (0,-1), (0,1)]`. -/
def bfsDirs : List Pos := [(-1, 0), (1, 0), (0, -1), (0, 1)]

/-- The four BFS-order neighbours of a position. -/
def bfsNbrs (p : Pos) : List Pos :=
  bfsDirs.map (fun d => (p.1 + d.1, p.2 + d.2))

/-- The finite set of all in-bounds cells. -/
def allCellsF (rows cols : Nat) : Finset Pos :=
  (Finset.range rows ×ˢ Finset.range cols).image
    (fun rc => ((rc.1 : Int), (rc.2 : Int)))

theorem mem_allCellsF {rows cols : Nat} {p : Pos} :
    p ∈ allCellsF rows cols ↔ inB rows cols p = true := by
  obtain ⟨a, b⟩ := p
  simp only [allCellsF, Finset.mem_image, Finset.mem_product, Finset.mem_range, inB,
    Bool.and_eq_true, decide_eq_true_eq]
  constructor
  · rintro ⟨⟨r, c⟩, ⟨hr, hc⟩, hrc⟩
    obtain ⟨h1, h2⟩ := Prod.mk.injEq .. ▸ hrc
    omega
  · intro h
    exact ⟨⟨a.toNat, b.toNat⟩, ⟨by omega, by omega⟩, by simp only [Prod.mk.injEq]; omega⟩

theorem card_allCellsF (rows cols : Nat) :
    (allCellsF rows cols).card ≤ rows * cols := by
  calc (allCellsF rows cols).card ≤ (Finset.range rows ×ˢ Finset.range cols).card :=
        Finset.card_image_le
    _ = rows * cols := by simp [Finset.card_product]

theorem options_nodup (p : Pos) : (options p).Nodup := by
  simp [options, Prod.ext_iff]
  omega

theorem not_mem_options (p : Pos) : p ∉ options p := by
  simp [options, Prod.ext_iff]
  omega

/-- The reveal loop of `update_known_map`: for each neighbour in order, if it
is in bounds and currently `UNKNOWN`, copy the ground-truth grid value. -/
def updNbrs (g : Pos → Int) (rows cols : Nat) : List Pos → (Pos → Int) → (Pos → Int)
  | [], k => k
  | n :: ns, k =>
    updNbrs g rows cols ns
      (if inB rows cols n = true ∧ k n = UNKNOWN then Function.update k n (g n) else k)

/-- `update_known_map` of both variants: mark the current position
`TRAVERSED`, then reveal the `UNKNOWN` in-bounds 4-neighbours from the
ground-truth grid `g`. -/
def updateKnownMap (g : Pos → Int) (rows cols : Nat) (p : Pos) (k : Pos → Int) :
    Pos → Int :=
  updNbrs g rows cols (options p) (Function.update k p TRAVERSED)

theorem updNbrs_notmem (g : Pos → Int) (rows cols : Nat) :
    ∀ (ns : List Pos) (k : Pos → Int) (x : Pos), x ∉ ns →
      updNbrs g rows cols ns k x = k x := by
  intro ns
  induction ns with
  | nil => intro k x _; rfl
  | cons n ns ih =>
    intro k x hx
    simp only [List.mem_cons, not_or] at hx
    rw [updNbrs, ih _ _ hx.2]
    split
    · exact Function.update_noteq hx.1 _ _
    · rfl

theorem updNbrs_mem (g : Pos → Int) (rows cols : Nat) :
    ∀ (ns : List Pos) (k : Pos → Int) (x : Pos), ns.Nodup → x ∈ ns →
      updNbrs g rows cols ns k x =
        if inB rows cols x = true ∧ k x = UNKNOWN then g x else k x := by
  intro ns
  induction ns with
  | nil => intro k x _ hx; cases hx
  | cons n ns ih =>
    intro k x hnd hx
    obtain ⟨hn, hnd⟩ := List.nodup_cons.mp hnd
    rcases List.mem_cons.mp hx with rfl | hx
    · rw [updNbrs, updNbrs_notmem _ _ _ _ _ _ hn]
      split
      · simp [Function.update_same]
      · rfl
    · have hne : x ≠ n := fun h => hn (h ▸ hx)
      rw [updNbrs, ih _ _ hnd hx]
      split
      · rw [Function.update_noteq hne]
      · rfl

/-- Pointwise behaviour of `update_known_map`: the centre becomes
`TRAVERSED`; an in-bounds `UNKNOWN` neighbour receives the grid value;
every other cell is untouched. -/
theorem updateKnownMap_apply (g : Pos → Int) (rows cols : Nat) (p : Pos)
    (k : Pos → Int) (x : Pos) :
    updateKnownMap g rows cols p k x =
      if x = p then TRAVERSED
      else if x ∈ options p ∧ inB rows cols x = true ∧ k x = UNKNOWN then g x
      else k x := by
  by_cases hxp : x = p
  · subst hxp
    rw [updateKnownMap, updNbrs_notmem _ _ _ _ _ _ (not_mem_options x)]
    simp [Function.update_same]
  · by_cases hmem : x ∈ options p
    · rw [updateKnownMap, updNbrs_mem _ _ _ _ _ _ (options_nodup p) hmem,
        Function.update_noteq hxp]
      simp [hxp, hmem]
    · rw [updateKnownMap, updNbrs_notmem _ _ _ _ _ _ hmem, Function.update_noteq hxp]
      simp [hxp, hmem]

/-- One queue-entry expansion of the breadth-first search: scan the four
directions in order; enqueue each in-bounds, unvisited neighbour that passes
the traversability test, marking it visited immediately. The queue carries
`(position, path from the start exclusive)` pairs, as in `coop.py`. -/
def bfsExpand (pass : Pos → Bool) (rows cols : Nat) (p : Pos) (w : List Pos)
    (qv : List (Pos × List Pos) × List Pos) : List (Pos × List Pos) × List Pos :=
  bfsDirs.foldl
    (fun acc d =>
      let n : Pos := (p.1 + d.1, p.2 + d.2)
      if inB rows cols n && !(decide (n ∈ acc.2)) && pass n then
        (acc.1 ++ [(n, w ++ [n])], n :: acc.2)
      else acc)
    qv

/-- The generic fuelled BFS loop: pop the front entry; if it satisfies the
goal test, return its path, otherwise expand it and continue. `none` when
the queue empties (or fuel runs out, which never happens with enough fuel). -/
def bfsAux (goal pass : Pos → Bool) (rows cols : Nat) :
    Nat → List (Pos × List Pos) → List Pos → Option (List Pos)
  | 0, _, _ => none
  | _ + 1, [], _ => none
  | fuel + 1, (p, w) :: rest, v =>
    if goal p then some w
    else
      let qv := bfsExpand pass rows cols p w (rest, v)
      bfsAux goal pass rows cols fuel qv.1 qv.2

/-- Generous fuel: one iteration per cell, plus one for the initial entry. -/
def bfsFuel (rows cols : Nat) : Nat := rows * cols + 1

/-- The traversability test of `coop.py`'s BFS:
`tile != OBSTACLE and tile != VICTIM`. -/
def coopPass (known : Pos → Int) (n : Pos) : Bool :=
  !(decide (known n = OBSTACLE)) && !(decide (known n = VICTIM))

/-- The traversability test of `single.py`'s BFS: `!= OBSTACLE` only. -/
def singlePass (known : Pos → Int) (n : Pos) : Bool :=
  !(decide (known n = OBSTACLE))

/-- The goal test of both BFS variants: the cell is `UNKNOWN`. -/
def goalU (known : Pos → Int) (p : Pos) : Bool := decide (known p = UNKNOWN)

/-- `coop.py`'s `bfs_to_unexplored` loop, faithful to the source: the queue
holds `(position, path-so-far)` pairs, the start is enqueued with the empty
path, and `[]` is returned both when an `UNKNOWN` start is popped with empty
path and when the queue is exhausted. -/
def coopBfsAux (known : Pos → Int) (rows cols : Nat) :
    Nat → List (Pos × List Pos) → List Pos → List Pos
  | 0, _, _ => []
  | _ + 1, [], _ => []
  | fuel + 1, (p, w) :: rest, v =>
    if known p = UNKNOWN then w
    else
      let qv := bfsExpand (coopPass known) rows cols p w (rest, v)
      coopBfsAux known rows cols fuel qv.1 qv.2

/-- `coop.py`'s `bfs_to_unexplored`: start from the robot position with an
empty path and the start marked visited. -/
def coopBfs (known : Pos → Int) (rows cols : Nat) (start : Pos) : List Pos :=
  coopBfsAux known rows cols (bfsFuel rows cols) [(start, [])] [start]

theorem coopBfsAux_eq_bfsAux (known : Pos → Int) (rows cols : Nat) :
    ∀ (fuel : Nat) (q : List (Pos × List Pos)) (v : List Pos),
      coopBfsAux known rows cols fuel q v =
        (bfsAux (goalU known) (coopPass known) rows cols fuel q v).getD [] := by
  intro fuel
  induction fuel with
  | zero => intro q v; rfl
  | succ fuel ih =>
    intro q v
    match q with
    | [] => rfl
    | (p, w) :: rest =>
      rw [coopBfsAux, bfsAux]
      by_cases h : known p = UNKNOWN
      · simp [goalU, h]
      · simp only [goalU, h, decide_True, decide_False, Bool.and_false, if_neg,
          Bool.false_eq_true, not_false_eq_true, ih]

/-- Path reconstruction of `single.py`'s BFS: starting from the found cell,
follow the `prev` parent map up to the start (which has no parent),
accumulating positions front-most first — the source appends and then
reverses, which is the same list. -/
def reconAux (prev : List (Pos × Pos)) : Nat → Pos → List Pos → List Pos
  | 0, _, acc => acc
  | fuel + 1, cur, acc =>
    match List.lookup cur prev with
    | some pr => reconAux prev fuel pr (pr :: acc)
    | none => acc

/-- Reconstructed start-inclusive path to `p` through the parent map. -/
def recon (prev : List (Pos × Pos)) (p : Pos) : List Pos :=
  reconAux prev prev.length p [p]

/-- One queue-entry expansion of `single.py`'s BFS: the queue holds bare
positions, and each enqueued neighbour records its parent in `prev`. -/
def singleExpand (known : Pos → Int) (rows cols : Nat) (p : Pos)
    (s : List Pos × List Pos × List (Pos × Pos)) :
    List Pos × List Pos × List (Pos × Pos) :=
  bfsDirs.foldl
    (fun acc d =>
      let n : Pos := (p.1 + d.1, p.2 + d.2)
      if inB rows cols n && !(decide (n ∈ acc.2.1)) && singlePass known n then
        (acc.1 ++ [n], n :: acc.2.1, (n, p) :: acc.2.2)
      else acc)
    s

/-- `single.py`'s `bfs_to_unexplored` loop: pop a position; if `UNKNOWN`,
reconstruct and return the start-inclusive path; otherwise expand. `none`
models the source's `return None` when no unexplored cell is reachable. -/
def singleBfsAux (known : Pos → Int) (rows cols : Nat) :
    Nat → List Pos → List Pos → List (Pos × Pos) → Option (List Pos)
  | 0, _, _, _ => none
  | _ + 1, [], _, _ => none
  | fuel + 1, p :: rest, v, prev =>
    if known p = UNKNOWN then some (recon prev p)
    else
      let s := singleExpand known rows cols p (rest, v, prev)
      singleBfsAux known rows cols fuel s.1 s.2.1 s.2.2

/-- `single.py`'s `bfs_to_unexplored`. -/
def singleBfs (known : Pos → Int) (rows cols : Nat) (start : Pos) :
    Option (List Pos) :=
  singleBfsAux known rows cols (bfsFuel rows cols) [start] [start] []

theorem bfsNbrs_nodup (p : Pos) : (bfsNbrs p).Nodup := by
  simp [bfsNbrs, bfsDirs, Prod.ext_iff]

/-- A passable chain through the grid: every element is a BFS-neighbour of
its predecessor, in bounds, and traversable under `pass`. Nothing is
required of the point the chain starts from. -/
def ChainFrom (pass : Pos → Bool) (rows cols : Nat) : Pos → List Pos → Prop
  | _, [] => True
  | x, n :: t =>
    n ∈ bfsNbrs x ∧ inB rows cols n = true ∧ pass n = true ∧
      ChainFrom pass rows cols n t

/-- The endpoint of a chain starting at `x`. -/
def endFrom (x : Pos) (w : List Pos) : Pos := w.getLast?.getD x

theorem endFrom_nil (x : Pos) : endFrom x [] = x := rfl

theorem endFrom_cons (x n : Pos) (t : List Pos) :
    endFrom x (n :: t) = endFrom n t := by
  cases t with
  | nil => rfl
  | cons m t =>
    show (n :: m :: t).getLast?.getD x = (m :: t).getLast?.getD n
    rw [List.getLast?_cons_cons]
    cases h : (m :: t).getLast? with
    | none => simp at h
    | some a => rfl

theorem endFrom_concat (x n : Pos) (w : List Pos) :
    endFrom x (w ++ [n]) = n := by
  simp [endFrom, List.getLast?_concat]

theorem chain_append {pass : Pos → Bool} {rows cols : Nat} :
    ∀ {w : List Pos} {x n : Pos}, ChainFrom pass rows cols x w →
      n ∈ bfsNbrs (endFrom x w) → inB rows cols n = true → pass n = true →
      ChainFrom pass rows cols x (w ++ [n]) := by
  intro w
  induction w with
  | nil =>
    intro x n _ hmem hb hp
    exact ⟨by simpa [endFrom_nil] using hmem, hb, hp, trivial⟩
  | cons m t ih =>
    intro x n hc hmem hb hp
    obtain ⟨h1, h2, h3, h4⟩ := hc
    exact ⟨h1, h2, h3, ih h4 (by simpa [endFrom_cons] using hmem) hb hp⟩

theorem chain_concat_iff {pass : Pos → Bool} {rows cols : Nat} :
    ∀ {w : List Pos} {x n : Pos},
      ChainFrom pass rows cols x (w ++ [n]) ↔
        ChainFrom pass rows cols x w ∧ n ∈ bfsNbrs (endFrom x w) ∧
          inB rows cols n = true ∧ pass n = true := by
  intro w
  induction w with
  | nil =>
    intro x n
    constructor
    · rintro ⟨h1, h2, h3, _⟩
      exact ⟨trivial, by simpa [endFrom_nil] using h1, h2, h3⟩
    · rintro ⟨_, h1, h2, h3⟩
      exact ⟨by simpa [endFrom_nil] using h1, h2, h3, trivial⟩
  | cons m t ih =>
    intro x n
    constructor
    · rintro ⟨h1, h2, h3, h4⟩
      obtain ⟨hc, hmem, hb, hp⟩ := ih.mp h4
      exact ⟨⟨h1, h2, h3, hc⟩, by simpa [endFrom_cons] using hmem, hb, hp⟩
    · rintro ⟨⟨h1, h2, h3, hc⟩, hmem, hb, hp⟩
      exact ⟨h1, h2, h3, ih.mpr ⟨hc, by simpa [endFrom_cons] using hmem, hb, hp⟩⟩

/-- `x` is reachable from `start` by a passable chain of exactly `m` hops. -/
def ReachN (pass : Pos → Bool) (rows cols : Nat) (start : Pos) (m : Nat)
    (x : Pos) : Prop :=
  ∃ w, ChainFrom pass rows cols start w ∧ w.length = m ∧ endFrom start w = x

theorem reach_zero {pass : Pos → Bool} {rows cols : Nat} {start x : Pos} :
    ReachN pass rows cols start 0 x ↔ x = start := by
  constructor
  · rintro ⟨w, _, hlen, hend⟩
    rw [List.length_eq_zero] at hlen
    subst hlen
    exact hend.symm
  · rintro rfl
    exact ⟨[], trivial, rfl, rfl⟩

theorem reach_self {pass : Pos → Bool} {rows cols : Nat} (start : Pos) :
    ReachN pass rows cols start 0 start := reach_zero.mpr rfl

theorem reach_succ {pass : Pos → Bool} {rows cols : Nat} {start : Pos}
    {m : Nat} {x : Pos} :
    ReachN pass rows cols start (m + 1) x ↔
      ∃ y, ReachN pass rows cols start m y ∧ x ∈ bfsNbrs y ∧
        inB rows cols x = true ∧ pass x = true := by
  constructor
  · rintro ⟨w, hc, hlen, hend⟩
    have hne : w ≠ [] := by intro h; subst h; simp at hlen
    have hdec : w.dropLast ++ [w.getLast hne] = w := List.dropLast_append_getLast hne
    rw [← hdec] at hc hend
    obtain ⟨hc', hmem, hb, hp⟩ := chain_concat_iff.mp hc
    rw [endFrom_concat] at hend
    subst hend
    refine ⟨endFrom start w.dropLast, ⟨w.dropLast, hc', ?_, rfl⟩, hmem, hb, hp⟩
    simp [List.length_dropLast, hlen]
  · rintro ⟨y, ⟨w, hc, hlen, hend⟩, hmem, hb, hp⟩
    refine ⟨w ++ [x], chain_append hc (hend ▸ hmem) hb hp, by simp [hlen], endFrom_concat ..⟩

theorem reach_step {pass : Pos → Bool} {rows cols : Nat} {start : Pos}
    {m : Nat} {y x : Pos} (hy : ReachN pass rows cols start m y)
    (hmem : x ∈ bfsNbrs y) (hb : inB rows cols x = true) (hp : pass x = true) :
    ReachN pass rows cols start (m + 1) x :=
  reach_succ.mpr ⟨y, hy, hmem, hb, hp⟩

/-- A queue entry carries a valid chain from the start, ending at the entry's
position, whose length is minimal among all chains reaching that position. -/
def EntryOk (pass : Pos → Bool) (rows cols : Nat) (start : Pos)
    (e : Pos × List Pos) : Prop :=
  ChainFrom pass rows cols start e.2 ∧ endFrom start e.2 = e.1 ∧
    ∀ m, ReachN pass rows cols start m e.1 → e.2.length ≤ m

/-- BFS queue shape: a block of entries at one level followed by a block at
the next level. -/
def TwoLevel (l : List Nat) : Prop :=
  ∃ L a b, l = List.replicate a L ++ List.replicate b (L + 1)

theorem twoLevel_mem {x : Nat} {ls : List Nat} (h : TwoLevel (x :: ls)) :
    ∀ y ∈ x :: ls, x ≤ y ∧ y ≤ x + 1 := by
  obtain ⟨L, a, b, hsh⟩ := h
  intro y hy
  rcases Nat.eq_zero_or_pos a with rfl | ha
  · rw [List.replicate_zero, List.nil_append] at hsh
    have hx : x = L + 1 := List.eq_of_mem_replicate (hsh ▸ List.mem_cons_self x ls)
    have hy' : y = L + 1 := List.eq_of_mem_replicate (hsh ▸ hy)
    omega
  · obtain ⟨a', rfl⟩ := Nat.exists_eq_add_of_le ha
    rw [List.replicate_add, List.replicate_one, List.singleton_append,
      List.cons_append] at hsh
    obtain ⟨hx, hls⟩ := List.cons_eq_cons.mp hsh
    subst hx hls
    rcases List.mem_cons.mp hy with rfl | hy'
    · omega
    · rcases List.mem_append.mp hy' with h | h
      · have := List.eq_of_mem_replicate h; omega
      · have := List.eq_of_mem_replicate h; omega

theorem twoLevel_step {x : Nat} {ls : List Nat} (k : Nat) (h : TwoLevel (x :: ls)) :
    TwoLevel (ls ++ List.replicate k (x + 1)) := by
  obtain ⟨L, a, b, hsh⟩ := h
  rcases Nat.eq_zero_or_pos a with rfl | ha
  · rw [List.replicate_zero, List.nil_append] at hsh
    cases b with
    | zero => simp at hsh
    | succ b' =>
      rw [List.replicate_succ] at hsh
      obtain ⟨hx, hls⟩ := List.cons_eq_cons.mp hsh
      subst hx hls
      exact ⟨L + 1, b', k, rfl⟩
  · obtain ⟨a', rfl⟩ := Nat.exists_eq_add_of_le ha
    rw [List.replicate_add, List.replicate_one, List.singleton_append,
      List.cons_append] at hsh
    obtain ⟨hx, hls⟩ := List.cons_eq_cons.mp hsh
    subst hx hls
    exact ⟨x, a', b + k, by rw [List.append_assoc, ← List.replicate_add]⟩

/-- The enqueue test of one neighbour: in bounds, unvisited, traversable. -/
def accept (pass : Pos → Bool) (rows cols : Nat) (v : List Pos) (n : Pos) :
    Bool :=
  inB rows cols n && !(decide (n ∈ v)) && pass n

theorem accept_iff {pass : Pos → Bool} {rows cols : Nat} {v : List Pos}
    {n : Pos} :
    accept pass rows cols v n = true ↔
      inB rows cols n = true ∧ n ∉ v ∧ pass n = true := by
  simp [accept, and_assoc]

theorem foldl_expand_spec (pass : Pos → Bool) (rows cols : Nat) (w : List Pos) :
    ∀ (ns : List Pos), ns.Nodup → ∀ (q0 : List (Pos × List Pos)) (v0 : List Pos),
      ns.foldl (fun acc n =>
          if inB rows cols n && !(decide (n ∈ acc.2)) && pass n then
            (acc.1 ++ [(n, w ++ [n])], n :: acc.2)
          else acc) (q0, v0) =
        (q0 ++ (ns.filter (accept pass rows cols v0)).map (fun n => (n, w ++ [n])),
         (ns.filter (accept pass rows cols v0)).reverse ++ v0) := by
  intro ns
  induction ns with
  | nil => intro _ q0 v0; simp
  | cons n ns ih =>
    intro hnd q0 v0
    obtain ⟨hn, hnd⟩ := List.nodup_cons.mp hnd
    have hfc : ns.filter (accept pass rows cols (n :: v0)) =
        ns.filter (accept pass rows cols v0) := by
      apply List.filter_congr
      intro x hx
      have hxn : x ≠ n := fun h => hn (h ▸ hx)
      simp [accept, List.mem_cons, hxn]
    rw [List.foldl_cons]
    by_cases hc : accept pass rows cols v0 n = true
    · have hcr : (inB rows cols n && !decide (n ∈ v0) && pass n) = true := hc
      rw [if_pos hcr, ih hnd, hfc, List.filter_cons_of_pos hc]
      simp
    · have hcr : ¬((inB rows cols n && !decide (n ∈ v0) && pass n) = true) := hc
      rw [if_neg hcr, ih hnd, List.filter_cons_of_neg (by simpa using hc)]

theorem bfsExpand_eq_nbrs (pass : Pos → Bool) (rows cols : Nat) (p : Pos)
    (w : List Pos) (qv : List (Pos × List Pos) × List Pos) :
    bfsExpand pass rows cols p w qv =
      (bfsNbrs p).foldl (fun acc n =>
        if inB rows cols n && !(decide (n ∈ acc.2)) && pass n then
          (acc.1 ++ [(n, w ++ [n])], n :: acc.2)
        else acc) qv := rfl

theorem bfsExpand_spec (pass : Pos → Bool) (rows cols : Nat) (p : Pos)
    (w : List Pos) (q0 : List (Pos × List Pos)) (v0 : List Pos) :
    bfsExpand pass rows cols p w (q0, v0) =
      (q0 ++ ((bfsNbrs p).filter (accept pass rows cols v0)).map
          (fun n => (n, w ++ [n])),
       ((bfsNbrs p).filter (accept pass rows cols v0)).reverse ++ v0) := by
  rw [bfsExpand_eq_nbrs]
  exact foldl_expand_spec pass rows cols w (bfsNbrs p) (bfsNbrs_nodup p) q0 v0

/-- The BFS loop invariant: the start is visited; queue entries carry
minimal-length valid chains; queue entry lengths form two consecutive
levels; every cell within the head entry's hop count is already visited;
every visited cell no longer queued has been expanded and is not a goal;
queued positions are distinct and visited. -/
def BfsInv (goal pass : Pos → Bool) (rows cols : Nat) (start : Pos)
    (q : List (Pos × List Pos)) (v : List Pos) : Prop :=
  start ∈ v ∧
  (∀ e ∈ q, EntryOk pass rows cols start e) ∧
  TwoLevel (q.map (fun e => e.2.length)) ∧
  (∀ e, q.head? = some e → ∀ x m, ReachN pass rows cols start m x →
      m ≤ e.2.length → x ∈ v) ∧
  (∀ y ∈ v, y ∉ q.map Prod.fst → goal y = false ∧
      ∀ n ∈ bfsNbrs y, inB rows cols n = true → pass n = true → n ∈ v) ∧
  (q.map Prod.fst).Nodup ∧
  (∀ e ∈ q, e.1 ∈ v)

theorem inv_init (goal pass : Pos → Bool) (rows cols : Nat) (start : Pos) :
    BfsInv goal pass rows cols start [(start, [])] [start] := by
  refine ⟨List.mem_singleton.mpr rfl, ?_, ⟨0, 1, 0, rfl⟩, ?_, ?_, by simp, ?_⟩
  · intro e he
    rw [List.mem_singleton] at he
    subst he
    exact ⟨trivial, rfl, fun m _ => Nat.zero_le m⟩
  · intro e he x m hr hm
    have he' : e = (start, []) := List.mem_singleton.mp (List.mem_of_mem_head? (by rw [he]; rfl))
    subst he'
    simp only [List.length_nil, Nat.le_zero] at hm
    subst hm
    simp [List.mem_singleton, reach_zero.mp hr]
  · intro y hy hyq
    rw [List.mem_singleton] at hy
    subst hy
    simp at hyq
  · intro e he
    have he' : e = (start, []) := List.mem_singleton.mp he
    subst he'
    simp

theorem inv_step {goal pass : Pos → Bool} {rows cols : Nat} {start p : Pos}
    {w : List Pos} {rest : List (Pos × List Pos)} {v : List Pos}
    (hInv : BfsInv goal pass rows cols start ((p, w) :: rest) v)
    (hg : goal p = false) :
    BfsInv goal pass rows cols start
      (bfsExpand pass rows cols p w (rest, v)).1
      (bfsExpand pass rows cols p w (rest, v)).2 := by
  obtain ⟨h1, h2, h3, h4, h5, h6, h7⟩ := hInv
  rw [bfsExpand_spec]
  set F := (bfsNbrs p).filter (accept pass rows cols v) with hF
  have hFmem : ∀ n ∈ F, n ∈ bfsNbrs p ∧ inB rows cols n = true ∧ n ∉ v ∧
      pass n = true := by
    intro n hn
    rw [hF, List.mem_filter] at hn
    obtain ⟨hmem, hacc⟩ := hn
    obtain ⟨hb, hnv, hp⟩ := accept_iff.mp hacc
    exact ⟨hmem, hb, hnv, hp⟩
  have hFnd : F.Nodup := (bfsNbrs_nodup p).filter _
  have hpw : EntryOk pass rows cols start (p, w) := h2 _ (List.mem_cons_self _ _)
  have hmin : ∀ n ∈ F, ∀ m, ReachN pass rows cols start m n → w.length + 1 ≤ m := by
    intro n hn m hr
    by_contra hlt
    exact (hFmem n hn).2.2.1 (h4 (p, w) rfl n m hr (show m ≤ w.length by omega))
  have hmapfst : (rest ++ F.map (fun n => (n, w ++ [n]))).map Prod.fst =
      rest.map Prod.fst ++ F := by
    simp only [List.map_append, List.map_map]
    have hcomp : (Prod.fst ∘ fun n : Pos => (n, w ++ [n])) = id := rfl
    rw [hcomp, List.map_id]
  have hmaplen : (rest ++ F.map (fun n => (n, w ++ [n]))).map
      (fun e => e.2.length) =
      rest.map (fun e => e.2.length) ++ List.replicate F.length (w.length + 1) := by
    simp only [List.map_append, List.map_map, List.append_cancel_left_eq]
    have : ((fun e : Pos × List Pos => e.2.length) ∘ fun n => (n, w ++ [n])) =
        fun _ => w.length + 1 := by
      funext n
      simp
    rw [this, List.map_const']
  have hTL' : TwoLevel ((rest ++ F.map (fun n => (n, w ++ [n]))).map
      (fun e => e.2.length)) := by
    rw [hmaplen]
    exact twoLevel_step F.length h3
  have hnewEntry : ∀ e ∈ F.map (fun n => (n, w ++ [n])),
      EntryOk pass rows cols start e := by
    intro e he
    rw [List.mem_map] at he
    obtain ⟨n, hn, rfl⟩ := he
    obtain ⟨hmem, hb, hnv, hp⟩ := hFmem n hn
    refine ⟨chain_append hpw.1 (hpw.2.1 ▸ hmem) hb hp, endFrom_concat .., ?_⟩
    intro m hr
    simpa using hmin n hn m hr
  refine ⟨List.mem_append_right _ h1, ?_, hTL', ?_, ?_, ?_, ?_⟩
  · intro e he
    rcases List.mem_append.mp he with he | he
    · exact h2 _ (List.mem_cons_of_mem _ he)
    · exact hnewEntry _ he
  · -- head coverage at the new level
    intro e' he' x m hr hm
    have he'q : e' ∈ rest ++ F.map (fun n => (n, w ++ [n])) :=
      List.mem_of_mem_head? he'
    have hlen' : e'.2.length ≤ w.length + 1 := by
      rcases List.mem_append.mp he'q with he2 | he2
      · have := twoLevel_mem h3 e'.2.length
          (by
            simp only [List.map_cons]
            exact List.mem_cons_of_mem _ (List.mem_map_of_mem _ he2))
        simpa using this.2
      · rw [List.mem_map] at he2
        obtain ⟨n, _, rfl⟩ := he2
        simp
    have hm' : m ≤ w.length + 1 := le_trans hm hlen'
    rcases Nat.lt_or_ge m (w.length + 1) with hmlt | hmge
    · exact List.mem_append_right _ (h4 (p, w) rfl x m hr (show m ≤ w.length by omega))
    · have hmeq : m = w.length + 1 := le_antisymm hm' hmge
      subst hmeq
      obtain ⟨y, hy, hxmem, hxb, hxp⟩ := reach_succ.mp hr
      have hyv : y ∈ v := h4 (p, w) rfl y w.length hy le_rfl
      by_cases hyfst : y ∈ ((p, w) :: rest).map Prod.fst
      · rw [List.map_cons] at hyfst
        rcases List.mem_cons.mp hyfst with rfl | hyrest
        · -- y = p : x is a neighbour of the popped head
          by_cases hxv : x ∈ v
          · exact List.mem_append_right _ hxv
          · refine List.mem_append_left _ (List.mem_reverse.mpr ?_)
            rw [hF, List.mem_filter]
            exact ⟨hxmem, accept_iff.mpr ⟨hxb, hxv, hxp⟩⟩
        · -- y sits in `rest`, but rest entries are at level |w|+1 here
          exfalso
          rw [List.mem_map] at hyrest
          obtain ⟨e2, he2, he2y⟩ := hyrest
          have hmin2 := (h2 _ (List.mem_cons_of_mem _ he2)).2.2 w.length
            (he2y ▸ hy)
          -- e2 is also in the new queue, whose head has length e'.2.length
          have he2q' : e2.2.length ∈ (rest ++ F.map (fun n => (n, w ++ [n]))).map
              (fun e => e.2.length) :=
            List.mem_map_of_mem _ (List.mem_append_left _ he2)
          have hhead : ∃ t, (rest ++ F.map (fun n => (n, w ++ [n]))) = e' :: t := by
            cases hq' : rest ++ F.map (fun n => (n, w ++ [n])) with
            | nil => rw [hq'] at he'; simp at he'
            | cons e0 t =>
              rw [hq'] at he'
              simp only [List.head?_cons, Option.some.injEq] at he'
              exact ⟨t, by rw [he']⟩
          obtain ⟨t, ht⟩ := hhead
          rw [ht, List.map_cons] at he2q'
          have hTL2 : TwoLevel (e'.2.length :: t.map (fun e => e.2.length)) := by
            show TwoLevel ((e' :: t).map (fun e => e.2.length))
            rw [← ht]
            exact hTL'
          have := (twoLevel_mem hTL2 e2.2.length he2q').1
          omega
      · -- y was popped earlier: its neighbours are all visited
        exact List.mem_append_right _ ((h5 y hyv hyfst).2 x hxmem hxb hxp)
  · -- expanded/popped cells
    intro y hy hyq'
    rw [hmapfst] at hyq'
    rcases List.mem_append.mp hy with hyF | hyv
    · exfalso
      exact hyq' (List.mem_append_right _ (List.mem_reverse.mp hyF))
    · by_cases hyfst : y ∈ ((p, w) :: rest).map Prod.fst
      · rw [List.map_cons] at hyfst
        rcases List.mem_cons.mp hyfst with rfl | hyrest
        · refine ⟨hg, ?_⟩
          intro n hn hb hp
          by_cases hnv : n ∈ v
          · exact List.mem_append_right _ hnv
          · refine List.mem_append_left _ (List.mem_reverse.mpr ?_)
            rw [hF, List.mem_filter]
            exact ⟨hn, accept_iff.mpr ⟨hb, hnv, hp⟩⟩
        · exact absurd (List.mem_append_left _ hyrest) hyq'
      · obtain ⟨hgy, hnb⟩ := h5 y hyv hyfst
        exact ⟨hgy, fun n hn hb hp => List.mem_append_right _ (hnb n hn hb hp)⟩
  · rw [hmapfst]
    rw [List.map_cons] at h6
    obtain ⟨hp6, h6'⟩ := List.nodup_cons.mp h6
    refine List.Nodup.append h6' hFnd ?_
    intro x hx1 hx2
    have hxv : x ∈ v := by
      rw [List.mem_map] at hx1
      obtain ⟨e2, he2, rfl⟩ := hx1
      exact h7 _ (List.mem_cons_of_mem _ he2)
    exact (hFmem x hx2).2.2.1 hxv
  · intro e he
    rcases List.mem_append.mp he with he | he
    · exact List.mem_append_right _ (h7 _ (List.mem_cons_of_mem _ he))
    · rw [List.mem_map] at he
      obtain ⟨n, hn, rfl⟩ := he
      exact List.mem_append_left _ (List.mem_reverse.mpr hn)

/-- Number of in-bounds cells not yet visited. -/
def unvisited (rows cols : Nat) (v : List Pos) : Nat :=
  ((allCellsF rows cols).filter (fun c => c ∉ v)).card

/-- The BFS termination measure: queue length plus unvisited cell count.
It strictly decreases at every non-returning iteration. -/
def Bm (rows cols : Nat) (q : List (Pos × List Pos)) (v : List Pos) : Nat :=
  q.length + unvisited rows cols v

theorem unvisited_cons {rows cols : Nat} {v : List Pos} {a : Pos}
    (hb : inB rows cols a = true) (hv : a ∉ v) :
    unvisited rows cols (a :: v) + 1 = unvisited rows cols v := by
  have ha : a ∈ (allCellsF rows cols).filter (fun c => c ∉ v) :=
    Finset.mem_filter.mpr ⟨mem_allCellsF.mpr hb, hv⟩
  have hfe : (allCellsF rows cols).filter (fun c => c ∉ a :: v) =
      ((allCellsF rows cols).filter (fun c => c ∉ v)).erase a := by
    ext c
    simp only [Finset.mem_filter, Finset.mem_erase, List.mem_cons, not_or]
    tauto
  have hcard : 0 < ((allCellsF rows cols).filter (fun c => c ∉ v)).card :=
    Finset.card_pos.mpr ⟨a, ha⟩
  rw [unvisited, hfe, Finset.card_erase_of_mem ha]
  unfold unvisited
  omega

theorem unvisited_batch {rows cols : Nat} :
    ∀ (as : List Pos) (v : List Pos), as.Nodup →
      (∀ a ∈ as, inB rows cols a = true ∧ a ∉ v) →
      unvisited rows cols (as.reverse ++ v) + as.length = unvisited rows cols v := by
  intro as
  induction as with
  | nil => intro v _ _; simp
  | cons a as ih =>
    intro v hnd hmem
    obtain ⟨ha, hnd⟩ := List.nodup_cons.mp hnd
    have h1 : unvisited rows cols (as.reverse ++ (a :: v)) + as.length =
        unvisited rows cols (a :: v) := by
      apply ih (a :: v) hnd
      intro x hx
      obtain ⟨hb, hv⟩ := hmem x (List.mem_cons_of_mem _ hx)
      refine ⟨hb, ?_⟩
      simp only [List.mem_cons, not_or]
      exact ⟨fun h => ha (h ▸ hx), hv⟩
    have h2 := unvisited_cons (hmem a (List.mem_cons_self _ _)).1
      (hmem a (List.mem_cons_self _ _)).2
    rw [List.reverse_cons, List.append_assoc, List.singleton_append,
      List.length_cons]
    omega

theorem bm_step {pass : Pos → Bool} {rows cols : Nat} {p : Pos} {w : List Pos}
    {rest : List (Pos × List Pos)} {v : List Pos} :
    Bm rows cols (bfsExpand pass rows cols p w (rest, v)).1
        (bfsExpand pass rows cols p w (rest, v)).2 + 1 ≤
      Bm rows cols ((p, w) :: rest) v := by
  rw [bfsExpand_spec]
  set F := (bfsNbrs p).filter (accept pass rows cols v) with hF
  have hFnd : F.Nodup := (bfsNbrs_nodup p).filter _
  have hFmem : ∀ a ∈ F, inB rows cols a = true ∧ a ∉ v := by
    intro a haF
    rw [hF, List.mem_filter] at haF
    obtain ⟨hb, hnv, _⟩ := accept_iff.mp haF.2
    exact ⟨hb, hnv⟩
  have hu := unvisited_batch F v hFnd hFmem
  simp only [Bm, List.length_append, List.length_map, List.length_cons]
  omega

theorem cutAux {goal pass : Pos → Bool} {rows cols : Nat} {start : Pos}
    {q : List (Pos × List Pos)} {v : List Pos}
    (hInv : BfsInv goal pass rows cols start q v) :
    ∀ (t : List Pos) (x : Pos) (j : Nat), x ∈ v →
      ReachN pass rows cols start j x → ChainFrom pass rows cols x t →
      goal (endFrom x t) = true →
      ∃ e ∈ q, ∃ t', ChainFrom pass rows cols e.1 t' ∧
        endFrom e.1 t' = endFrom x t ∧ e.2.length + t'.length ≤ j + t.length := by
  obtain ⟨h1, h2, h3, h4, h5, h6, h7⟩ := hInv
  intro t
  induction t with
  | nil =>
    intro x j hx hrx _ hgoal
    rw [endFrom_nil] at hgoal
    by_cases hxq : x ∈ q.map Prod.fst
    · obtain ⟨e, he, he1⟩ := List.mem_map.mp hxq
      refine ⟨e, he, [], trivial, by rw [endFrom_nil, endFrom_nil, he1], ?_⟩
      have hle := (h2 e he).2.2 j (by rw [he1]; exact hrx)
      simpa using hle
    · rw [(h5 x hx hxq).1] at hgoal
      cases hgoal
  | cons n t ih =>
    intro x j hx hrx hchain hgoal
    obtain ⟨hmem, hb, hp, hchain'⟩ := hchain
    rw [endFrom_cons] at hgoal
    by_cases hxq : x ∈ q.map Prod.fst
    · obtain ⟨e, he, he1⟩ := List.mem_map.mp hxq
      refine ⟨e, he, n :: t, ?_, ?_, ?_⟩
      · rw [he1]
        exact ⟨hmem, hb, hp, hchain'⟩
      · rw [he1]
      · have hle := (h2 e he).2.2 j (by rw [he1]; exact hrx)
        simp only [List.length_cons]
        omega
    · have hnv : n ∈ v := (h5 x hx hxq).2 n hmem hb hp
      have hrn : ReachN pass rows cols start (j + 1) n := reach_step hrx hmem hb hp
      obtain ⟨e, he, t', hc', hend', hlen'⟩ := ih n (j + 1) hnv hrn hchain' hgoal
      refine ⟨e, he, t', hc', by rw [hend', endFrom_cons], ?_⟩
      simp only [List.length_cons]
      omega

theorem bfs_complete {goal pass : Pos → Bool} {rows cols : Nat} {start : Pos} :
    ∀ (fuel : Nat) (q : List (Pos × List Pos)) (v : List Pos),
      BfsInv goal pass rows cols start q v → Bm rows cols q v ≤ fuel →
      ∀ w0, ChainFrom pass rows cols start w0 →
        goal (endFrom start w0) = true →
        ∃ r, bfsAux goal pass rows cols fuel q v = some r ∧
          ChainFrom pass rows cols start r ∧ goal (endFrom start r) = true ∧
          r.length ≤ w0.length := by
  intro fuel
  induction fuel with
  | zero =>
    intro q v hInv hB w0 hc hg
    exfalso
    have hq : q = [] := by
      have : q.length = 0 := by
        simp only [Bm] at hB
        omega
      exact List.length_eq_zero.mp this
    subst hq
    obtain ⟨e, he, _⟩ := cutAux hInv w0 start 0 hInv.1 (reach_self start) hc hg
    simp at he
  | succ fuel ih =>
    intro q v hInv hB w0 hc hg
    match q with
    | [] =>
      exfalso
      obtain ⟨e, he, _⟩ := cutAux hInv w0 start 0 hInv.1 (reach_self start) hc hg
      simp at he
    | (p, w) :: rest =>
      by_cases hgp : goal p = true
      · refine ⟨w, by simp [bfsAux, hgp], (hInv.2.1 _ (List.mem_cons_self _ _)).1,
          ?_, ?_⟩
        · rw [(hInv.2.1 _ (List.mem_cons_self _ _)).2.1]
          exact hgp
        · obtain ⟨e, he, t', _, _, hle⟩ :=
            cutAux hInv w0 start 0 hInv.1 (reach_self start) hc hg
          have hTL : TwoLevel (w.length :: rest.map (fun e => e.2.length)) :=
            hInv.2.2.1
          have hmem : e.2.length ∈ w.length :: rest.map (fun e => e.2.length) :=
            List.mem_map_of_mem (fun e => e.2.length) he
          have := (twoLevel_mem hTL e.2.length hmem).1
          omega
      · have hgp' : goal p = false := by
          simpa using hgp
        have hInv' := inv_step hInv hgp'
        have hB' := @bm_step pass rows cols p w rest v
        obtain ⟨r, hr, hcr, hgr, hlr⟩ := ih _ _ hInv' (by omega) w0 hc hg
        refine ⟨r, ?_, hcr, hgr, hlr⟩
        simpa [bfsAux, hgp'] using hr

theorem bfs_sound {goal pass : Pos → Bool} {rows cols : Nat} {start : Pos} :
    ∀ (fuel : Nat) (q : List (Pos × List Pos)) (v : List Pos),
      BfsInv goal pass rows cols start q v →
      ∀ r, bfsAux goal pass rows cols fuel q v = some r →
        ChainFrom pass rows cols start r ∧ goal (endFrom start r) = true := by
  intro fuel
  induction fuel with
  | zero =>
    intro q v _ r h
    simp [bfsAux] at h
  | succ fuel ih =>
    intro q v hInv r h
    match q with
    | [] => simp [bfsAux] at h
    | (p, w) :: rest =>
      by_cases hgp : goal p = true
      · have hw : w = r := by simpa [bfsAux, hgp] using h
        subst hw
        have hE := hInv.2.1 _ (List.mem_cons_self _ _)
        refine ⟨hE.1, ?_⟩
        rw [hE.2.1]
        exact hgp
      · have hgp' : goal p = false := by simpa using hgp
        apply ih _ _ (inv_step hInv hgp') r
        simpa [bfsAux, hgp'] using h

theorem bm_init {rows cols : Nat} (start : Pos) :
    Bm rows cols [(start, [])] [start] ≤ bfsFuel rows cols := by
  have h1 : ((allCellsF rows cols).filter
      (fun c => c ∉ [start])).card ≤ (allCellsF rows cols).card :=
    Finset.card_filter_le _ _
  have h2 := card_allCellsF rows cols
  simp only [Bm, bfsFuel, List.length_cons, List.length_nil, unvisited]
  omega

theorem bfs_main {goal pass : Pos → Bool} {rows cols : Nat} {start : Pos}
    (w0 : List Pos) (hc : ChainFrom pass rows cols start w0)
    (hg : goal (endFrom start w0) = true) :
    ∃ r, bfsAux goal pass rows cols (bfsFuel rows cols)
        [(start, [])] [start] = some r ∧
      ChainFrom pass rows cols start r ∧ goal (endFrom start r) = true ∧
      r.length ≤ w0.length :=
  bfs_complete (bfsFuel rows cols) _ _ (inv_init goal pass rows cols start)
    (bm_init start) w0 hc hg

/-- Full functional correctness of `coop.py`'s `bfs_to_unexplored`, provided
the start is not itself `UNKNOWN` (as always holds at call sites, the robot's
position being `TRAVERSED`): the empty result means no `UNKNOWN` cell is
reachable through cells known neither `OBSTACLE` nor `VICTIM`; a non-empty
result is a start-exclusive passable chain of minimal hop count ending at an
`UNKNOWN` cell. -/
theorem coopBfs_correct (known : Pos → Int) (rows cols : Nat) (start : Pos)
    (hne : known start ≠ UNKNOWN) :
    (coopBfs known rows cols start = [] →
      ¬ ∃ w, ChainFrom (coopPass known) rows cols start w ∧
        known (endFrom start w) = UNKNOWN) ∧
    (coopBfs known rows cols start ≠ [] →
      ChainFrom (coopPass known) rows cols start (coopBfs known rows cols start) ∧
      known (endFrom start (coopBfs known rows cols start)) = UNKNOWN ∧
      ∀ w, ChainFrom (coopPass known) rows cols start w →
        known (endFrom start w) = UNKNOWN →
        (coopBfs known rows cols start).length ≤ w.length) := by
  have heq : coopBfs known rows cols start =
      (bfsAux (goalU known) (coopPass known) rows cols (bfsFuel rows cols)
        [(start, [])] [start]).getD [] := by
    rw [coopBfs, coopBfsAux_eq_bfsAux]
  cases hr : bfsAux (goalU known) (coopPass known) rows cols
      (bfsFuel rows cols) [(start, [])] [start] with
  | none =>
    rw [heq, hr]
    constructor
    · rintro _ ⟨w, hc, hgw⟩
      obtain ⟨r, hsome, _⟩ := @bfs_main (goalU known) (coopPass known) rows cols
        start w hc (by simp [goalU, hgw])
      rw [hr] at hsome
      cases hsome
    · intro hcontra
      exact absurd rfl hcontra
  | some r =>
    rw [heq, hr]
    simp only [Option.getD_some]
    have hs := bfs_sound (bfsFuel rows cols) _ _
      (inv_init (goalU known) (coopPass known) rows cols start) r hr
    have hrne : r ≠ [] := by
      intro hnil
      subst hnil
      rw [endFrom_nil] at hs
      exact hne (by simpa [goalU] using hs.2)
    constructor
    · intro hnil
      exact absurd hnil hrne
    · intro _
      refine ⟨hs.1, by simpa [goalU] using hs.2, ?_⟩
      intro w hc hgw
      obtain ⟨r', hsome', _, _, hlen'⟩ := @bfs_main (goalU known) (coopPass known)
        rows cols start w hc (by simp [goalU, hgw])
      rw [hr] at hsome'
      obtain rfl : r' = r := (Option.some.inj hsome').symm
      exact hlen'

theorem lookup_cons_self {a : Pos} {b : Pos} {tl : List (Pos × Pos)} :
    List.lookup a ((a, b) :: tl) = some b := by
  simp [List.lookup]

theorem lookup_cons_ne {a k b : Pos} {tl : List (Pos × Pos)} (h : a ≠ k) :
    List.lookup a ((k, b) :: tl) = List.lookup a tl := by
  have hb : (a == k) = false := beq_eq_false_iff_ne.mpr h
  simp [List.lookup, hb]

theorem lookup_append_of_notkey {n : Pos} :
    ∀ {l1 : List (Pos × Pos)} {l2 : List (Pos × Pos)},
      (∀ kv ∈ l1, kv.1 ≠ n) →
      List.lookup n (l1 ++ l2) = List.lookup n l2 := by
  intro l1
  induction l1 with
  | nil => intro l2 _; rfl
  | cons kv tl ih =>
    intro l2 h
    obtain ⟨k, b⟩ := kv
    rw [List.cons_append, lookup_cons_ne (fun hnk => h (k, b) (List.mem_cons_self _ _) hnk.symm)]
    exact ih fun kv hkv => h kv (List.mem_cons_of_mem _ hkv)

theorem lookup_append_of_key {n b : Pos} :
    ∀ {l1 : List (Pos × Pos)} {l2 : List (Pos × Pos)},
      (l1.map Prod.fst).Nodup → (n, b) ∈ l1 →
      List.lookup n (l1 ++ l2) = some b := by
  intro l1
  induction l1 with
  | nil => intro l2 _ h; cases h
  | cons kv tl ih =>
    intro l2 hnd hmem
    obtain ⟨k, c⟩ := kv
    rw [List.map_cons] at hnd
    obtain ⟨hk, hnd⟩ := List.nodup_cons.mp hnd
    rcases List.mem_cons.mp hmem with heq | hmem'
    · obtain ⟨rfl, rfl⟩ := Prod.mk.injEq .. ▸ heq
      exact lookup_cons_self
    · have hne : n ≠ k := by
        intro hnk
        apply hk
        rw [← hnk]
        exact List.mem_map.mpr ⟨(n, b), hmem', rfl⟩
      rw [List.cons_append, lookup_cons_ne hne]
      exact ih hnd hmem'

/-- The spine of the parent map: the lookup chain from a node back to a root
(a node with no recorded parent), root first, node last. -/
inductive Spine (prev : List (Pos × Pos)) : Pos → List Pos → Prop
  | root (p : Pos) (h : List.lookup p prev = none) : Spine prev p [p]
  | step (p pr : Pos) (l : List Pos) (h : List.lookup p prev = some pr)
      (hs : Spine prev pr l) : Spine prev p (l ++ [p])

theorem spine_ne_nil {prev : List (Pos × Pos)} {p : Pos} {l : List Pos}
    (h : Spine prev p l) : l ≠ [] := by
  cases h with
  | root => simp
  | step _ _ l _ _ => simp

theorem spine_unique {prev : List (Pos × Pos)} {p : Pos} {l1 l2 : List Pos}
    (h1 : Spine prev p l1) (h2 : Spine prev p l2) : l1 = l2 := by
  induction h1 generalizing l2 with
  | root p hl =>
    cases h2 with
    | root => rfl
    | step _ pr _ hl2 _ => rw [hl] at hl2; cases hl2
  | step p pr l hl hs ih =>
    cases h2 with
    | root _ hl2 => rw [hl] at hl2; cases hl2
    | step _ pr2 l2' hl2 hs2 =>
      rw [hl] at hl2
      obtain rfl : pr = pr2 := by injection hl2
      rw [ih hs2]

theorem reconAux_spine {prev : List (Pos × Pos)} {p : Pos} {l : List Pos}
    (h : Spine prev p l) :
    ∀ (fuel : Nat) (acc : List Pos), l.length ≤ fuel + 1 →
      reconAux prev fuel p (p :: acc) = l ++ acc := by
  induction h with
  | root p hl =>
    intro fuel acc _
    cases fuel with
    | zero => rfl
    | succ fuel =>
      rw [reconAux, hl]
      rfl
  | step p pr l hl hs ih =>
    intro fuel acc hlen
    have hlpos : 1 ≤ l.length := by
      cases hl2 : l with
      | nil => exact absurd hl2 (spine_ne_nil hs)
      | cons a t => simp
    rw [List.length_append, List.length_cons, List.length_nil] at hlen
    cases fuel with
    | zero => omega
    | succ fuel =>
      rw [reconAux, hl]
      show reconAux prev fuel pr (pr :: (p :: acc)) = (l ++ [p]) ++ acc
      rw [ih fuel (p :: acc) (by omega), List.append_assoc, List.singleton_append]

theorem recon_eq {prev : List (Pos × Pos)} {p : Pos} {l : List Pos}
    (h : Spine prev p l) (hlen : l.length ≤ prev.length + 1) :
    recon prev p = l := by
  have := reconAux_spine h prev.length [] hlen
  rw [recon, this, List.append_nil]

theorem spine_insert {prev : List (Pos × Pos)} {p : Pos} {l : List Pos}
    (h : Spine prev p l) {n par : Pos} (hn : ∀ x ∈ l, x ≠ n) :
    Spine ((n, par) :: prev) p l := by
  induction h with
  | root p hl =>
    exact Spine.root p (by
      rw [lookup_cons_ne (hn p (List.mem_singleton.mpr rfl))]
      exact hl)
  | step p pr l hl hs ih =>
    refine Spine.step p pr l ?_ (ih fun x hx => hn x (List.mem_append_left _ hx))
    rw [lookup_cons_ne (hn p (List.mem_append_right _ (List.mem_singleton.mpr rfl)))]
    exact hl

theorem spine_extend {prev : List (Pos × Pos)} {p : Pos} {l : List Pos}
    (h : Spine prev p l) :
    ∀ (added : List (Pos × Pos)), (∀ kv ∈ added, ∀ x ∈ l, x ≠ kv.1) →
      Spine (added ++ prev) p l := by
  intro added
  induction added with
  | nil => intro _; exact h
  | cons kv tl ih =>
    intro hfresh
    obtain ⟨n, par⟩ := kv
    rw [List.cons_append]
    exact spine_insert (ih fun kv hkv => hfresh kv (List.mem_cons_of_mem _ hkv))
      (hfresh (n, par) (List.mem_cons_self _ _))

theorem foldl_sexpand_spec (known : Pos → Int) (rows cols : Nat) (p : Pos) :
    ∀ (ns : List Pos), ns.Nodup →
      ∀ (q0 v0 : List Pos) (pr0 : List (Pos × Pos)),
      ns.foldl (fun acc n =>
          if inB rows cols n && !(decide (n ∈ acc.2.1)) && singlePass known n then
            (acc.1 ++ [n], n :: acc.2.1, (n, p) :: acc.2.2)
          else acc) (q0, v0, pr0) =
        (q0 ++ ns.filter (accept (singlePass known) rows cols v0),
         (ns.filter (accept (singlePass known) rows cols v0)).reverse ++ v0,
         ((ns.filter (accept (singlePass known) rows cols v0)).map
            (fun n => (n, p))).reverse ++ pr0) := by
  intro ns
  induction ns with
  | nil => intro _ q0 v0 pr0; simp
  | cons n ns ih =>
    intro hnd q0 v0 pr0
    obtain ⟨hn, hnd⟩ := List.nodup_cons.mp hnd
    have hfc : ns.filter (accept (singlePass known) rows cols (n :: v0)) =
        ns.filter (accept (singlePass known) rows cols v0) := by
      apply List.filter_congr
      intro x hx
      have hxn : x ≠ n := fun h => hn (h ▸ hx)
      simp [accept, List.mem_cons, hxn]
    rw [List.foldl_cons]
    by_cases hc : accept (singlePass known) rows cols v0 n = true
    · have hcr : (inB rows cols n && !decide (n ∈ v0) && singlePass known n) = true := hc
      rw [if_pos hcr, ih hnd, hfc, List.filter_cons_of_pos hc]
      simp
    · have hcr : ¬((inB rows cols n && !decide (n ∈ v0) && singlePass known n) = true) := hc
      rw [if_neg hcr, ih hnd, List.filter_cons_of_neg (by simpa using hc)]

theorem singleExpand_eq_nbrs (known : Pos → Int) (rows cols : Nat) (p : Pos)
    (s : List Pos × List Pos × List (Pos × Pos)) :
    singleExpand known rows cols p s =
      (bfsNbrs p).foldl (fun acc n =>
        if inB rows cols n && !(decide (n ∈ acc.2.1)) && singlePass known n then
          (acc.1 ++ [n], n :: acc.2.1, (n, p) :: acc.2.2)
        else acc) s := rfl

theorem singleExpand_spec (known : Pos → Int) (rows cols : Nat) (p : Pos)
    (q0 v0 : List Pos) (pr0 : List (Pos × Pos)) :
    singleExpand known rows cols p (q0, v0, pr0) =
      (q0 ++ (bfsNbrs p).filter (accept (singlePass known) rows cols v0),
       ((bfsNbrs p).filter (accept (singlePass known) rows cols v0)).reverse ++ v0,
       (((bfsNbrs p).filter (accept (singlePass known) rows cols v0)).map
          (fun n => (n, p))).reverse ++ pr0) := by
  rw [singleExpand_eq_nbrs]
  exact foldl_sexpand_spec known rows cols p (bfsNbrs p) (bfsNbrs_nodup p) q0 v0 pr0

/-- Coupling between `single.py`'s position-queue/parent-map BFS state and
the path-carrying queue of the generic BFS: every queued position's parent
spine is the start-inclusive version of the generic queue's path, every
visited cell has a spine through visited cells short enough to reconstruct,
and all parent keys are visited. -/
def Coup (start : Pos) (q : List (Pos × List Pos)) (v : List Pos)
    (prev : List (Pos × Pos)) : Prop :=
  (∀ e ∈ q, Spine prev e.1 (start :: e.2) ∧ e.1 ∈ v) ∧
  (∀ p ∈ v, ∃ l, Spine prev p l ∧ (∀ x ∈ l, x ∈ v) ∧ l.length ≤ prev.length + 1) ∧
  (∀ kv ∈ prev, kv.1 ∈ v)

theorem coup_init (start : Pos) : Coup start [(start, [])] [start] [] := by
  refine ⟨?_, ?_, ?_⟩
  · intro e he
    rw [List.mem_singleton] at he
    subst he
    exact ⟨Spine.root start rfl, List.mem_singleton.mpr rfl⟩
  · intro p hp
    rw [List.mem_singleton] at hp
    subst hp
    exact ⟨[p], Spine.root p rfl, by simp, by simp⟩
  · intro kv hkv
    cases hkv

theorem coup_step {known : Pos → Int} {rows cols : Nat} {start p : Pos}
    {w : List Pos} {rest : List (Pos × List Pos)} {v : List Pos}
    {prev : List (Pos × Pos)}
    (hC : Coup start ((p, w) :: rest) v prev) :
    Coup start (bfsExpand (singlePass known) rows cols p w (rest, v)).1
      (bfsExpand (singlePass known) rows cols p w (rest, v)).2
      ((((bfsNbrs p).filter (accept (singlePass known) rows cols v)).map
          (fun n => (n, p))).reverse ++ prev) := by
  obtain ⟨hc1, hc2, hc3⟩ := hC
  rw [bfsExpand_spec]
  set F := (bfsNbrs p).filter (accept (singlePass known) rows cols v) with hF
  set added := (F.map (fun n => (n, p))).reverse with hadded
  have hFv : ∀ n ∈ F, n ∉ v := by
    intro n hn
    rw [hF, List.mem_filter] at hn
    exact (accept_iff.mp hn.2).2.1
  have haddedmem : ∀ kv ∈ added, kv.1 ∈ F ∧ kv.2 = p := by
    intro kv hkv
    rw [hadded, List.mem_reverse, List.mem_map] at hkv
    obtain ⟨n, hn, rfl⟩ := hkv
    exact ⟨hn, rfl⟩
  have haddedlen : added.length = F.length := by
    rw [hadded]
    simp
  have haddedkeys : (added.map Prod.fst).Nodup := by
    rw [hadded, ← List.map_reverse, List.map_map]
    have hcomp : (Prod.fst ∘ fun n : Pos => (n, p)) = id := rfl
    rw [hcomp, List.map_id]
    exact List.nodup_reverse.mpr ((bfsNbrs_nodup p).filter _)
  -- the popped head's spine and its properties
  obtain ⟨hspineP, hPv⟩ := hc1 (p, w) (List.mem_cons_self _ _)
  obtain ⟨lP, hslP, hsubP, hlenP⟩ := hc2 p hPv
  obtain rfl := spine_unique hslP hspineP
  -- extending any visited-supported spine with the fresh keys
  have hext : ∀ {x : Pos} {l : List Pos}, Spine prev x l → (∀ y ∈ l, y ∈ v) →
      Spine (added ++ prev) x l := by
    intro x l hsp hsub
    apply spine_extend hsp
    intro kv hkv y hy hyk
    exact hFv kv.1 (haddedmem kv hkv).1 (hyk ▸ hsub y hy)
  have hspineP' : Spine (added ++ prev) p (start :: w) := hext hspineP hsubP
  have hnewspine : ∀ n ∈ F, Spine (added ++ prev) n ((start :: w) ++ [n]) := by
    intro n hn
    refine Spine.step n p (start :: w) ?_ hspineP'
    apply lookup_append_of_key haddedkeys
    rw [hadded, List.mem_reverse, List.mem_map]
    exact ⟨n, hn, rfl⟩
  refine ⟨?_, ?_, ?_⟩
  · intro e he
    rcases List.mem_append.mp he with he | he
    · obtain ⟨hsp, hev⟩ := hc1 e (List.mem_cons_of_mem _ he)
      obtain ⟨l2, hsl2, hsub2, _⟩ := hc2 e.1 hev
      obtain rfl := spine_unique hsl2 hsp
      exact ⟨hext hsp hsub2, List.mem_append_right _ hev⟩
    · rw [List.mem_map] at he
      obtain ⟨n, hn, rfl⟩ := he
      exact ⟨hnewspine n hn, List.mem_append_left _ (List.mem_reverse.mpr hn)⟩
  · intro x hx
    rcases List.mem_append.mp hx with hxF | hxv
    · rw [List.mem_reverse] at hxF
      refine ⟨(start :: w) ++ [x], hnewspine x hxF, ?_, ?_⟩
      · intro y hy
        rcases List.mem_append.mp hy with hy | hy
        · exact List.mem_append_right _ (hsubP y hy)
        · rw [List.mem_singleton] at hy
          subst hy
          exact List.mem_append_left _ (List.mem_reverse.mpr hxF)
      · have hFpos : 1 ≤ F.length := by
          cases hFl : F with
          | nil => rw [hFl] at hxF; cases hxF
          | cons a t => simp
        simp only [List.length_append, List.length_cons, List.length_nil, haddedlen]
        simp only [List.length_cons] at hlenP
        omega
    · obtain ⟨l2, hsl2, hsub2, hlen2⟩ := hc2 x hxv
      refine ⟨l2, hext hsl2 hsub2, fun y hy => List.mem_append_right _ (hsub2 y hy), ?_⟩
      simp only [List.length_append]
      omega
  · intro kv hkv
    rcases List.mem_append.mp hkv with hkv | hkv
    · exact List.mem_append_left _ (List.mem_reverse.mpr (haddedmem kv hkv).1)
    · exact List.mem_append_right _ (hc3 kv hkv)

theorem single_coupled (known : Pos → Int) (rows cols : Nat) (start : Pos) :
    ∀ (fuel : Nat) (q : List (Pos × List Pos)) (v : List Pos)
      (prev : List (Pos × Pos)), Coup start q v prev →
      singleBfsAux known rows cols fuel (q.map Prod.fst) v prev =
        Option.map (fun w => start :: w)
          (bfsAux (goalU known) (singlePass known) rows cols fuel q v) := by
  intro fuel
  induction fuel with
  | zero => intro q v prev _; rfl
  | succ fuel ih =>
    intro q v prev hC
    match q with
    | [] => rfl
    | (p, w) :: rest =>
      rw [List.map_cons]
      by_cases hgp : known p = UNKNOWN
      · obtain ⟨hspine, hpv⟩ := hC.1 (p, w) (List.mem_cons_self _ _)
        obtain ⟨l, hsl, _, hlen⟩ := hC.2.1 p hpv
        obtain rfl := spine_unique hsl hspine
        rw [singleBfsAux, if_pos hgp, recon_eq hspine hlen]
        simp [bfsAux, goalU, hgp]
      · have hgp' : goalU known p = false := by
          simp [goalU, hgp]
        have hRHS : bfsAux (goalU known) (singlePass known) rows cols (fuel + 1)
            ((p, w) :: rest) v =
            bfsAux (goalU known) (singlePass known) rows cols fuel
              (bfsExpand (singlePass known) rows cols p w (rest, v)).1
              (bfsExpand (singlePass known) rows cols p w (rest, v)).2 := by
          simp [bfsAux, hgp']
        rw [singleBfsAux, if_neg hgp, hRHS]
        have hC' := @coup_step known rows cols start p w rest v prev hC
        have hih := ih (bfsExpand (singlePass known) rows cols p w (rest, v)).1
          (bfsExpand (singlePass known) rows cols p w (rest, v)).2
          ((((bfsNbrs p).filter (accept (singlePass known) rows cols v)).map
            (fun n => (n, p))).reverse ++ prev) hC'
        rw [← hih]
        -- align the concrete single-state with the projections
        rw [singleExpand_spec, bfsExpand_spec]
        simp only [List.map_append, List.map_map]
        have hcomp : (Prod.fst ∘ fun n : Pos => (n, w ++ [n])) = id := rfl
        rw [hcomp, List.map_id]

/-- Full functional correctness of `single.py`'s `bfs_to_unexplored`:
`none` means no `UNKNOWN` cell is reachable through cells not known to be
`OBSTACLE`; a returned path is the start-inclusive version of a passable
chain of minimal hop count ending at an `UNKNOWN` cell. -/
theorem singleBfs_correct (known : Pos → Int) (rows cols : Nat) (start : Pos) :
    (singleBfs known rows cols start = none →
      ¬ ∃ w, ChainFrom (singlePass known) rows cols start w ∧
        known (endFrom start w) = UNKNOWN) ∧
    (∀ l, singleBfs known rows cols start = some l →
      ∃ w, l = start :: w ∧ ChainFrom (singlePass known) rows cols start w ∧
        known (endFrom start w) = UNKNOWN ∧
        ∀ w', ChainFrom (singlePass known) rows cols start w' →
          known (endFrom start w') = UNKNOWN → w.length ≤ w'.length) := by
  have heq : singleBfs known rows cols start =
      Option.map (fun w => start :: w)
        (bfsAux (goalU known) (singlePass known) rows cols (bfsFuel rows cols)
          [(start, [])] [start]) := by
    rw [singleBfs]
    exact single_coupled known rows cols start (bfsFuel rows cols)
      [(start, [])] [start] [] (coup_init start)
  cases hr : bfsAux (goalU known) (singlePass known) rows cols
      (bfsFuel rows cols) [(start, [])] [start] with
  | none =>
    rw [heq, hr]
    constructor
    · rintro _ ⟨w, hc, hgw⟩
      obtain ⟨r, hsome, _⟩ := @bfs_main (goalU known) (singlePass known) rows cols
        start w hc (by simp [goalU, hgw])
      rw [hr] at hsome
      cases hsome
    · intro l hl
      cases hl
  | some r =>
    rw [heq, hr]
    have hs := bfs_sound (bfsFuel rows cols) _ _
      (inv_init (goalU known) (singlePass known) rows cols start) r hr
    constructor
    · intro h
      cases h
    · intro l hl
      simp only [Option.map_some'] at hl
      obtain rfl := (Option.some.inj hl).symm
      refine ⟨r, rfl, hs.1, by simpa [goalU] using hs.2, ?_⟩
      intro w' hc' hgw'
      obtain ⟨r', hsome', _, _, hlen'⟩ := @bfs_main (goalU known)
        (singlePass known) rows cols start w' hc' (by simp [goalU, hgw'])
      rw [hr] at hsome'
      obtain rfl : r' = r := (Option.some.inj hsome').symm
      exact hlen'

/-- Shared state of `coop.py`: the ground-truth grid, the single known map
shared by all robots, and the victim registry. -/
structure CoopEnv where
  grid : Pos → Int
  known : Pos → Int
  victims : Finset Pos

/-- A robot of `coop.py`: its position and its planned path. -/
structure Robot where
  pos : Pos
  path : List Pos

/-- The path-following branch of `coop.py`'s `move`: pop the next queued
position, move there unconditionally, update the known map, then drop the
following queued position if the updated known map reports it `VICTIM` or
`OBSTACLE`. -/
def coopFollow (rows cols : Nat) (e : CoopEnv) (rb : Robot) : CoopEnv × Robot :=
  match rb.path with
  | [] => (e, rb)
  | next :: rest =>
    let known' := updateKnownMap e.grid rows cols next e.known
    let path' :=
      match rest with
      | [] => ([] : List Pos)
      | nn :: rest2 =>
        if known' nn = VICTIM ∨ known' nn = OBSTACLE then rest2 else nn :: rest2
    (⟨e.grid, known', e.victims⟩, ⟨next, path'⟩)

/-- `coop.py`'s `RescueRobot.move`, with the shuffled neighbour order passed
as the parameter `ord`. Priority 1 scans for a known-map `VICTIM`, priority 2
for a known-map `FREE` cell, priority 3 adopts the tail of the BFS path
(dropping its first step) and immediately executes it, priority 4 retreats to
a known-map `TRAVERSED` neighbour. -/
def coopMove (rows cols : Nat) (ord : List Pos) (e : CoopEnv) (rb : Robot) :
    CoopEnv × Robot :=
  match rb.path with
  | _ :: _ => coopFollow rows cols e rb
  | [] =>
    match ord.find? (fun n => inB rows cols n && decide (e.known n = VICTIM)) with
    | some n =>
      let g' := Function.update e.grid n 0
      (⟨g', updateKnownMap g' rows cols n e.known, e.victims.erase n⟩, ⟨n, []⟩)
    | none =>
      match ord.find? (fun n => inB rows cols n && decide (e.known n = FREE)) with
      | some n =>
        (⟨e.grid, updateKnownMap e.grid rows cols n e.known, e.victims⟩, ⟨n, []⟩)
      | none =>
        let p3 := coopBfs e.known rows cols rb.pos
        if 1 < p3.length then
          coopFollow rows cols e ⟨rb.pos, p3.drop 1⟩
        else
          match ord.find? (fun n => inB rows cols n &&
              decide (e.known n = TRAVERSED)) with
          | some n =>
            (⟨e.grid, updateKnownMap e.grid rows cols n e.known, e.victims⟩,
              ⟨n, []⟩)
          | none => (e, rb)

/-- Shared state of `single.py`: the ground-truth grid and victim registry
(each robot owns its private known map). -/
structure SEnv where
  grid : Pos → Int
  victims : Finset Pos

/-- A robot of `single.py`: position, planned path, private known map. -/
structure SRobot where
  pos : Pos
  path : List Pos
  known : Pos → Int

/-- `single.py`'s `RescueRobot.move`. `none` models the `IndexError` raised
by `self.path.pop(0)` when a replanned path has no second element; every
normal outcome is `some`. Path following double-checks only `OBSTACLE` and
replans (or walks into the obstacle when replanning fails); priority 1 scans
the ground-truth grid for `VICTIM`; priority 2 needs ground truth and known
map both `FREE`; priority 3 follows the start-inclusive BFS path; priority 4
compares the ground-truth grid against `TRAVERSED`. -/
def singleMove (rows cols : Nat) (ord : List Pos) (e : SEnv) (rb : SRobot) :
    Option (SEnv × SRobot) :=
  match rb.path with
  | next :: rest =>
    if rb.known next = OBSTACLE then
      match singleBfs rb.known rows cols rb.pos with
      | some p =>
        match p.drop 1 with
        | [] => none
        | next2 :: rest2 =>
          some (e, ⟨next2, rest2, updateKnownMap e.grid rows cols next2 rb.known⟩)
      | none =>
        some (e, ⟨next, rest, updateKnownMap e.grid rows cols next rb.known⟩)
    else
      some (e, ⟨next, rest, updateKnownMap e.grid rows cols next rb.known⟩)
  | [] =>
    match ord.find? (fun n => inB rows cols n && decide (e.grid n = VICTIM)) with
    | some n =>
      let g' := Function.update e.grid n 0
      some (⟨g', e.victims.erase n⟩, ⟨n, [], updateKnownMap g' rows cols n rb.known⟩)
    | none =>
      match ord.find? (fun n => inB rows cols n && decide (e.grid n = FREE) &&
          decide (rb.known n = FREE)) with
      | some n =>
        some (e, ⟨n, [], updateKnownMap e.grid rows cols n rb.known⟩)
      | none =>
        match singleBfs rb.known rows cols rb.pos with
        | some p =>
          if 1 < p.length then
            match p.drop 1 with
            | [] => none
            | next2 :: rest2 =>
              some (e, ⟨next2, rest2, updateKnownMap e.grid rows cols next2 rb.known⟩)
          else
            match ord.find? (fun n => inB rows cols n &&
                decide (e.grid n = TRAVERSED)) with
            | some n =>
              some (e, ⟨n, [], updateKnownMap e.grid rows cols n rb.known⟩)
            | none => some (e, rb)
        | none =>
          match ord.find? (fun n => inB rows cols n &&
              decide (e.grid n = TRAVERSED)) with
          | some n =>
            some (e, ⟨n, [], updateKnownMap e.grid rows cols n rb.known⟩)
          | none => some (e, rb)

/-- Full simulation state of `coop.py`. -/
structure CoopSim where
  env : CoopEnv
  robots : List Robot

/-- In-bounds cells in row-major scan order, as iterated at setup. -/
def cellScan (rows cols : Nat) : List Pos :=
  (List.range rows).flatMap
    (fun r => (List.range cols).map (fun c => ((r : Int), (c : Int))))

/-- `coop.py`'s setup: victims registered from `VICTIM` cells, robots created
at `ROBOT` cells in scan order, each constructor running `update_known_map`
on the single shared known map, which starts all-`UNKNOWN`. -/
def coopInit (g : Pos → Int) (rows cols : Nat) : CoopSim :=
  let rcs := (cellScan rows cols).filter (fun p => decide (g p = ROBOT))
  let known0 := rcs.foldl (fun k p => updateKnownMap g rows cols p k)
    (fun _ => UNKNOWN)
  ⟨⟨g, known0,
      ((cellScan rows cols).filter (fun p => decide (g p = VICTIM))).toFinset⟩,
    rcs.map (fun p => ⟨p, []⟩)⟩

/-- One pass over the robot list: each robot moves once against the shared
state left by its predecessors; `ords` supplies each robot's shuffled
neighbour order (falling back to the unshuffled order when exhausted). -/
def coopTickAux (rows cols : Nat) :
    List Robot → List (List Pos) → CoopEnv → CoopEnv × List Robot
  | [], _, e => (e, [])
  | rb :: rbs, [], e =>
    let er := coopMove rows cols (options rb.pos) e rb
    let k := coopTickAux rows cols rbs [] er.1
    (k.1, er.2 :: k.2)
  | rb :: rbs, ord :: ords, e =>
    let er := coopMove rows cols ord e rb
    let k := coopTickAux rows cols rbs ords er.1
    (k.1, er.2 :: k.2)

/-- One simulation tick of `coop.py`: move all robots in a fixed order. -/
def coopTick (rows cols : Nat) (ords : List (List Pos)) (s : CoopSim) : CoopSim :=
  ⟨(coopTickAux rows cols s.robots ords s.env).1,
    (coopTickAux rows cols s.robots ords s.env).2⟩

/-- The states of `coop.py` reachable from setup on some loaded grid under
arbitrary shuffle draws. -/
inductive CoopReachable (rows cols : Nat) : CoopSim → Prop
  | init (g : Pos → Int) : CoopReachable rows cols (coopInit g rows cols)
  | step (s : CoopSim) (ords : List (List Pos)) (h : CoopReachable rows cols s) :
      CoopReachable rows cols (coopTick rows cols ords s)

/-- Every cell the shared known map reports as `VICTIM` really holds a victim
in the ground-truth grid. -/
def KnownVictimsReal (e : CoopEnv) : Prop :=
  ∀ x, e.known x = VICTIM → e.grid x = VICTIM

theorem updK_victim {g : Pos → Int} {rows cols : Nat} {p : Pos}
    {k : Pos → Int} {x : Pos}
    (h : updateKnownMap g rows cols p k x = VICTIM) :
    x ≠ p ∧ (k x = VICTIM ∨ g x = VICTIM) := by
  rw [updateKnownMap_apply] at h
  by_cases hxp : x = p
  · rw [if_pos hxp] at h
    cases h
  · rw [if_neg hxp] at h
    refine ⟨hxp, ?_⟩
    by_cases hc : x ∈ options p ∧ inB rows cols x = true ∧ k x = UNKNOWN
    · rw [if_pos hc] at h
      exact Or.inr h
    · rw [if_neg hc] at h
      exact Or.inl h

theorem coopFollow_pres {rows cols : Nat} {e : CoopEnv} {rb : Robot}
    (hKV : KnownVictimsReal e) :
    KnownVictimsReal (coopFollow rows cols e rb).1 := by
  match hp : rb.path with
  | [] =>
    rw [coopFollow, hp]
    exact hKV
  | next :: rest =>
    rw [coopFollow, hp]
    intro x hx
    obtain ⟨_, hv⟩ := updK_victim hx
    rcases hv with hv | hv
    · exact hKV x hv
    · exact hv

theorem coopMove_pres {rows cols : Nat} {ord : List Pos} {e : CoopEnv}
    {rb : Robot} (hKV : KnownVictimsReal e) :
    KnownVictimsReal (coopMove rows cols ord e rb).1 := by
  rw [coopMove]
  match hp : rb.path with
  | _ :: _ => exact coopFollow_pres hKV
  | [] =>
    match h1 : ord.find? (fun n => inB rows cols n && decide (e.known n = VICTIM)) with
    | some n =>
      intro x hx
      obtain ⟨hxn, hv⟩ := updK_victim hx
      rcases hv with hv | hv
      · have hg := hKV x hv
        show Function.update e.grid n 0 x = VICTIM
        rwa [Function.update_noteq hxn]
      · exact hv
    | none =>
      match h2 : ord.find? (fun n => inB rows cols n && decide (e.known n = FREE)) with
      | some n =>
        intro x hx
        obtain ⟨_, hv⟩ := updK_victim hx
        rcases hv with hv | hv
        · exact hKV x hv
        · exact hv
      | none =>
        by_cases h3 : 1 < (coopBfs e.known rows cols rb.pos).length
        · rw [if_pos h3]
          exact coopFollow_pres hKV
        · rw [if_neg h3]
          match h4 : ord.find? (fun n => inB rows cols n &&
              decide (e.known n = TRAVERSED)) with
          | some n =>
            intro x hx
            obtain ⟨_, hv⟩ := updK_victim hx
            rcases hv with hv | hv
            · exact hKV x hv
            · exact hv
          | none => exact hKV

theorem coopTickAux_pres {rows cols : Nat} :
    ∀ (rbs : List Robot) (ords : List (List Pos)) (e : CoopEnv),
      KnownVictimsReal e →
      KnownVictimsReal (coopTickAux rows cols rbs ords e).1 := by
  intro rbs
  induction rbs with
  | nil => intro ords e h; cases ords <;> exact h
  | cons rb rbs ih =>
    intro ords e h
    cases ords with
    | nil => exact ih [] _ (coopMove_pres h)
    | cons ord ords => exact ih ords _ (coopMove_pres h)

theorem coopInit_KV (g : Pos → Int) (rows cols : Nat) :
    KnownVictimsReal (coopInit g rows cols).env := by
  rw [coopInit]
  have hbase : ∀ (rcs : List Pos) (k : Pos → Int),
      (∀ x, k x = VICTIM → g x = VICTIM) →
      ∀ x, (rcs.foldl (fun k p => updateKnownMap g rows cols p k) k) x = VICTIM →
        g x = VICTIM := by
    intro rcs
    induction rcs with
    | nil => intro k hk x hx; exact hk x hx
    | cons p rcs ih =>
      intro k hk x hx
      apply ih (updateKnownMap g rows cols p k) ?_ x hx
      intro y hy
      obtain ⟨_, hv⟩ := updK_victim hy
      rcases hv with hv | hv
      · exact hk y hv
      · exact hv
  intro x hx
  apply hbase _ _ ?_ x hx
  intro y hy
  cases hy

/-- The invariant holds in every reachable `coop.py` state. -/
theorem coopReachable_KV {rows cols : Nat} {s : CoopSim}
    (h : CoopReachable rows cols s) : KnownVictimsReal s.env := by
  induction h with
  | init g => exact coopInit_KV g rows cols
  | step s ords _ ih => exact coopTickAux_pres s.robots ords s.env ih

theorem updK_unknown {g : Pos → Int} {rows cols : Nat} {p : Pos}
    {k : Pos → Int} {x : Pos}
    (h : updateKnownMap g rows cols p k x = UNKNOWN) : k x = UNKNOWN := by
  rw [updateKnownMap_apply] at h
  by_cases hxp : x = p
  · rw [if_pos hxp] at h
    exact absurd h (by decide)
  · rw [if_neg hxp] at h
    by_cases hc : x ∈ options p ∧ inB rows cols x = true ∧ k x = UNKNOWN
    · exact hc.2.2
    · rw [if_neg hc] at h
      exact h

theorem coopFollow_unknown {rows cols : Nat} {e : CoopEnv} {rb : Robot} {x : Pos}
    (h : (coopFollow rows cols e rb).1.known x = UNKNOWN) :
    e.known x = UNKNOWN := by
  match hp : rb.path with
  | [] =>
    rw [coopFollow, hp] at h
    exact h
  | next :: rest =>
    rw [coopFollow, hp] at h
    exact updK_unknown h

theorem coopMove_unknown {rows cols : Nat} {ord : List Pos} {e : CoopEnv}
    {rb : Robot} {x : Pos}
    (h : (coopMove rows cols ord e rb).1.known x = UNKNOWN) :
    e.known x = UNKNOWN := by
  rw [coopMove] at h
  match hp : rb.path with
  | _ :: _ =>
    rw [hp] at h
    exact coopFollow_unknown h
  | [] =>
    rw [hp] at h
    match h1 : ord.find? (fun n => inB rows cols n && decide (e.known n = VICTIM)) with
    | some n =>
      rw [h1] at h
      exact updK_unknown h
    | none =>
      rw [h1] at h
      match h2 : ord.find? (fun n => inB rows cols n && decide (e.known n = FREE)) with
      | some n =>
        rw [h2] at h
        exact updK_unknown h
      | none =>
        rw [h2] at h
        by_cases h3 : 1 < (coopBfs e.known rows cols rb.pos).length
        · rw [if_pos h3] at h
          exact coopFollow_unknown h
        · rw [if_neg h3] at h
          match h4 : ord.find? (fun n => inB rows cols n &&
              decide (e.known n = TRAVERSED)) with
          | some n =>
            rw [h4] at h
            exact updK_unknown h
          | none =>
            rw [h4] at h
            exact h

theorem singleMove_unknown {rows cols : Nat} {ord : List Pos} {e : SEnv}
    {rb : SRobot} {x : Pos} {s' : SEnv × SRobot}
    (h : singleMove rows cols ord e rb = some s')
    (hx : s'.2.known x = UNKNOWN) : rb.known x = UNKNOWN := by
  obtain ⟨pos, path, known⟩ := rb
  cases path with
  | cons next rest =>
    simp only [singleMove] at h
    by_cases hob : known next = OBSTACLE
    · rw [if_pos hob] at h
      cases hbfs : singleBfs known rows cols pos with
      | some p =>
        rw [hbfs] at h
        replace h : (match p.drop 1 with
            | [] => (none : Option (SEnv × SRobot))
            | next2 :: rest2 =>
              some (e, ⟨next2, rest2, updateKnownMap e.grid rows cols next2 known⟩))
            = some s' := h
        cases hdrop : p.drop 1 with
        | nil =>
          rw [hdrop] at h
          cases h
        | cons n2 r2 =>
          rw [hdrop] at h
          obtain rfl := Option.some.inj h
          exact updK_unknown hx
      | none =>
        rw [hbfs] at h
        obtain rfl := Option.some.inj h
        exact updK_unknown hx
    · rw [if_neg hob] at h
      obtain rfl := Option.some.inj h
      exact updK_unknown hx
  | nil =>
    simp only [singleMove] at h
    cases h1 : ord.find? (fun n => inB rows cols n && decide (e.grid n = VICTIM)) with
    | some n =>
      rw [h1] at h
      obtain rfl := Option.some.inj h
      exact updK_unknown hx
    | none =>
      rw [h1] at h
      cases h2 : ord.find? (fun n => inB rows cols n && decide (e.grid n = FREE) &&
          decide (known n = FREE)) with
      | some n =>
        rw [h2] at h
        obtain rfl := Option.some.inj h
        exact updK_unknown hx
      | none =>
        rw [h2] at h
        cases hbfs : singleBfs known rows cols pos with
        | some p =>
          rw [hbfs] at h
          replace h : (if 1 < p.length then
              (match p.drop 1 with
                | [] => (none : Option (SEnv × SRobot))
                | next2 :: rest2 =>
                  some (e, ⟨next2, rest2, updateKnownMap e.grid rows cols next2 known⟩))
            else
              (match ord.find? (fun n => inB rows cols n &&
                  decide (e.grid n = TRAVERSED)) with
                | some n =>
                  some (e, ⟨n, [], updateKnownMap e.grid rows cols n known⟩)
                | none => some (e, ⟨pos, [], known⟩))) = some s' := h
          by_cases h3 : 1 < p.length
          · rw [if_pos h3] at h
            cases hdrop : p.drop 1 with
            | nil =>
              rw [hdrop] at h
              cases h
            | cons n2 r2 =>
              rw [hdrop] at h
              obtain rfl := Option.some.inj h
              exact updK_unknown hx
          · rw [if_neg h3] at h
            cases h4 : ord.find? (fun n => inB rows cols n &&
                decide (e.grid n = TRAVERSED)) with
            | some n =>
              rw [h4] at h
              obtain rfl := Option.some.inj h
              exact updK_unknown hx
            | none =>
              rw [h4] at h
              obtain rfl := Option.some.inj h
              exact hx
        | none =>
          rw [hbfs] at h
          cases h4 : ord.find? (fun n => inB rows cols n &&
              decide (e.grid n = TRAVERSED)) with
          | some n =>
            rw [h4] at h
            obtain rfl := Option.some.inj h
            exact updK_unknown hx
          | none =>
            rw [h4] at h
            obtain rfl := Option.some.inj h
            exact hx

/-- Example ground-truth grid on 1×2: a victim next to free space. -/
def exGrid1 : Pos → Int := fun p => if p = ((0 : Int), (1 : Int)) then VICTIM else FREE

/-- Example known map on 1×2: only the origin explored. -/
def exKnown1 : Pos → Int :=
  fun p => if p = ((0 : Int), (0 : Int)) then TRAVERSED else UNKNOWN

/-- Claim C7: after every call to `update_known_map`, the agent's current
position is marked `Traversed` in its known map (unconditionally, overriding
any prior revealed value), and every in-bounds 4-neighbour whose known state
was `Unknown` is set to the ground-truth grid state at that coordinate. -/
theorem c7_theorem (g : Pos → Int) (rows cols : Nat) (p : Pos) (k : Pos → Int) :
    updateKnownMap g rows cols p k p = TRAVERSED ∧
    ∀ n ∈ options p, inB rows cols n = true → k n = UNKNOWN →
      updateKnownMap g rows cols p k n = g n := by
  constructor
  · rw [updateKnownMap_apply, if_pos rfl]
  · intro n hn hb hu
    have hnp : ¬(n = p) := by
      intro h
      subst h
      exact not_mem_options _ hn
    rw [updateKnownMap_apply, if_neg hnp, if_pos ⟨hn, hb, hu⟩]

theorem c7_witness :
    updateKnownMap exGrid1 1 2 ((0 : Int), (0 : Int)) exKnown1
        ((0 : Int), (0 : Int)) = TRAVERSED ∧
    updateKnownMap exGrid1 1 2 ((0 : Int), (0 : Int)) exKnown1
        ((0 : Int), (1 : Int)) = exGrid1 ((0 : Int), (1 : Int)) :=
  ⟨(c7_theorem exGrid1 1 2 ((0 : Int), (0 : Int)) exKnown1).1,
    (c7_theorem exGrid1 1 2 ((0 : Int), (0 : Int)) exKnown1).2
      ((0 : Int), (1 : Int)) (by decide) (by decide) (by decide)⟩

/-- Claim C6: once a known-map cell departs `Unknown` it never returns:
neither `update_known_map` (reveal and mark-traversed) nor a full `move`
(including rescue) of either variant writes `Unknown` over a cell that is no
longer `Unknown` — stated contrapositively, a cell `Unknown` afterwards was
already `Unknown` before. -/
theorem c6_theorem (g : Pos → Int) (rows cols : Nat) (p : Pos) (k : Pos → Int)
    (ord : List Pos) (e : CoopEnv) (rb : Robot) (e2 : SEnv) (rb2 : SRobot)
    (x : Pos) :
    (updateKnownMap g rows cols p k x = UNKNOWN → k x = UNKNOWN) ∧
    ((coopMove rows cols ord e rb).1.known x = UNKNOWN →
      e.known x = UNKNOWN) ∧
    (∀ s', singleMove rows cols ord e2 rb2 = some s' →
      s'.2.known x = UNKNOWN → rb2.known x = UNKNOWN) :=
  ⟨updK_unknown, coopMove_unknown, fun _ h hx => singleMove_unknown h hx⟩

theorem c6_witness :
    updateKnownMap exGrid1 1 2 ((0 : Int), (0 : Int)) exKnown1
        ((0 : Int), (1 : Int)) = UNKNOWN →
      exKnown1 ((0 : Int), (1 : Int)) = UNKNOWN :=
  (c6_theorem exGrid1 1 2 ((0 : Int), (0 : Int)) exKnown1
    (options ((0 : Int), (0 : Int)))
    ⟨exGrid1, exKnown1, ∅⟩ ⟨((0 : Int), (0 : Int)), []⟩
    ⟨exGrid1, ∅⟩ ⟨((0 : Int), (0 : Int)), [], exKnown1⟩
    ((0 : Int), (1 : Int))).1

/-- Claim C9: `bfs_to_unexplored` of both variants is a pure function of the
known map, the grid dimensions and the start position — two invocations on
identical inputs return identical results, with no dependence on any random
source (the embedding threads the random shuffle orders only through `move`,
never through the search). -/
theorem c9_theorem (k1 k2 : Pos → Int) (rows1 rows2 cols1 cols2 : Nat)
    (s1 s2 : Pos) (hk : k1 = k2) (hr : rows1 = rows2) (hc : cols1 = cols2)
    (hs : s1 = s2) :
    coopBfs k1 rows1 cols1 s1 = coopBfs k2 rows2 cols2 s2 ∧
    singleBfs k1 rows1 cols1 s1 = singleBfs k2 rows2 cols2 s2 := by
  subst hk hr hc hs
  exact ⟨rfl, rfl⟩

theorem c9_witness :
    coopBfs exKnown1 1 2 ((0 : Int), (0 : Int)) =
      coopBfs exKnown1 1 2 ((0 : Int), (0 : Int)) ∧
    singleBfs exKnown1 1 2 ((0 : Int), (0 : Int)) =
      singleBfs exKnown1 1 2 ((0 : Int), (0 : Int)) :=
  c9_theorem exKnown1 exKnown1 1 1 2 2 ((0 : Int), (0 : Int))
    ((0 : Int), (0 : Int)) rfl rfl rfl rfl

/-- Claim C10: in every reachable state of the shared-knowledge variant
(`coop.py`), every cell the shared known map reports as `Target` really is a
`Target` in the ground-truth grid; consequently a rescue triggered by the
known-map check of priority 1 always zeroes a cell that actually holds a
victim. -/
theorem c10_theorem {rows cols : Nat} {s : CoopSim}
    (h : CoopReachable rows cols s) :
    (∀ x, s.env.known x = VICTIM → s.env.grid x = VICTIM) ∧
    (∀ (ord : List Pos) (n : Pos),
      ord.find? (fun n => inB rows cols n && decide (s.env.known n = VICTIM)) =
        some n → s.env.grid n = VICTIM) := by
  have hKV := coopReachable_KV h
  refine ⟨hKV, ?_⟩
  intro ord n hfind
  have hp := List.find?_some hfind
  rw [Bool.and_eq_true, decide_eq_true_eq] at hp
  exact hKV n hp.2

/-- Example loaded grid on 1×3: a robot start next to a victim. -/
def exGrid10 : Pos → Int := fun p =>
  if p = ((0 : Int), (0 : Int)) then ROBOT
  else if p = ((0 : Int), (1 : Int)) then VICTIM
  else FREE

theorem c10_witness :
    (coopInit exGrid10 1 3).env.known ((0 : Int), (1 : Int)) = VICTIM ∧
    (coopInit exGrid10 1 3).env.grid ((0 : Int), (1 : Int)) = VICTIM :=
  ⟨by decide,
    (c10_theorem (CoopReachable.init exGrid10)).1 ((0 : Int), (1 : Int))
      (by decide)⟩

/-- Ground-truth grid for the C4 failing input: a free 1×2 corridor. -/
def c4Grid : Pos → Int := fun _ => FREE

/-- Known map for the C4 failing input: both cells already traversed. -/
def c4Known : Pos → Int := fun p =>
  if p = ((0 : Int), (0 : Int)) then TRAVERSED
  else if p = ((0 : Int), (1 : Int)) then TRAVERSED
  else UNKNOWN

/-- Environment of the C4 failing input. -/
def c4Env : SEnv := ⟨c4Grid, ∅⟩

/-- Robot of the C4 failing input: at `(0,1)`, no plan. -/
def c4Robot : SRobot := ⟨((0 : Int), (1 : Int)), [], c4Known⟩

/-- Claim C4, failing input for `single.py`: the neighbour `(0,0)` is
known-`TRAVERSED` and priorities 1–3 all fail, yet `move` leaves the agent at
`(0,1)` — the retreat compares the ground-truth grid (here `FREE = 0`)
against `TRAVERSED = -1`, a value no grid cell ever holds, so it can never
fire. The claim (and `coop.py`, and the comment `Go back to traversed cell
if stuck`) requires relocating to `(0,0)`. -/
theorem c4_theorem :
    c4Robot.known ((0 : Int), (0 : Int)) = TRAVERSED ∧
    ((0 : Int), (0 : Int)) ∈ options c4Robot.pos ∧
    inB 1 2 ((0 : Int), (0 : Int)) = true ∧
    singleMove 1 2 (options ((0 : Int), (1 : Int))) c4Env c4Robot =
      some (c4Env, c4Robot) := by
  refine ⟨by decide, by decide, by decide, ?_⟩
  rfl

/-- Ground-truth grid for the C5 failing input: a free 1×4 corridor. -/
def c5Grid : Pos → Int := fun _ => FREE

/-- Shared known map for the C5 failing input: two traversed cells, the rest
unexplored. -/
def c5Known : Pos → Int := fun p =>
  if p = ((0 : Int), (0 : Int)) then TRAVERSED
  else if p = ((0 : Int), (1 : Int)) then TRAVERSED
  else UNKNOWN

/-- Environment of the C5 failing input. -/
def c5Env : CoopEnv := ⟨c5Grid, c5Known, ∅⟩

/-- Robot of the C5 failing input: at `(0,0)`, no plan. -/
def c5Robot : Robot := ⟨((0 : Int), (0 : Int)), []⟩

/-- Claim C5, failing input for `coop.py`: priorities 1 and 2 find nothing,
the frontier search returns the start-exclusive path `[(0,1), (0,2)]`, and
priority 3 stores `path[1:]` — although `coop.py`'s BFS already excludes the
start — then executes it in the same tick, so the agent jumps from `(0,0)`
straight to `(0,2)`, two cells away, skipping `(0,1)` entirely. -/
theorem c5_theorem :
    c5Robot.pos = ((0 : Int), (0 : Int)) ∧
    coopBfs c5Known 1 4 ((0 : Int), (0 : Int)) =
      [((0 : Int), (1 : Int)), ((0 : Int), (2 : Int))] ∧
    (coopMove 1 4 (options ((0 : Int), (0 : Int))) c5Env c5Robot).2.pos =
      ((0 : Int), (2 : Int)) ∧
    ((0 : Int), (2 : Int)) ∉ c5Robot.pos :: options c5Robot.pos := by
  refine ⟨rfl, by decide, ?_, by decide⟩
  rfl

theorem singleMove_rescue {rows cols : Nat} {ord : List Pos} {e : SEnv}
    {rb : SRobot} {n : Pos} (hp : rb.path = [])
    (hfind : ord.find? (fun x => inB rows cols x && decide (e.grid x = VICTIM)) =
      some n) :
    singleMove rows cols ord e rb =
      some (⟨Function.update e.grid n 0, e.victims.erase n⟩,
        ⟨n, [], updateKnownMap (Function.update e.grid n 0) rows cols n
          rb.known⟩) := by
  obtain ⟨pos, path, known⟩ := rb
  simp only at hp
  subst hp
  simp only [singleMove]
  rw [hfind]

theorem coopMove_rescue {rows cols : Nat} {ord : List Pos} {e : CoopEnv}
    {rb : Robot} {n : Pos} (hp : rb.path = [])
    (hfind : ord.find? (fun x => inB rows cols x && decide (e.known x = VICTIM)) =
      some n) :
    coopMove rows cols ord e rb =
      (⟨Function.update e.grid n 0,
        updateKnownMap (Function.update e.grid n 0) rows cols n e.known,
        e.victims.erase n⟩, ⟨n, []⟩) := by
  obtain ⟨pos, path⟩ := rb
  simp only at hp
  subst hp
  simp only [coopMove]
  rw [hfind]

theorem find?_of_exists {l : List Pos} {p : Pos → Bool}
    (h : ∃ x ∈ l, p x = true) : ∃ y, l.find? p = some y := by
  obtain ⟨x, hx, hpx⟩ := h
  have : (l.find? p).isSome := List.find?_isSome.mpr ⟨x, hx, hpx⟩
  cases hfind : l.find? p with
  | none => rw [hfind] at this; cases this
  | some y => exact ⟨y, rfl⟩

/-- Known map for the C1 counterexample: both cells of the 1×2 grid
traversed. -/
def c1Known : Pos → Int := fun p =>
  if p = ((0 : Int), (0 : Int)) then TRAVERSED
  else if p = ((0 : Int), (1 : Int)) then TRAVERSED
  else UNKNOWN

/-- Environment of the C1 counterexample: the grid truly holds a victim at
`(0,1)`, registered in the victim set, but the shared known map records the
cell as `TRAVERSED`. -/
def c1Env : CoopEnv := ⟨exGrid1, c1Known, {((0 : Int), (1 : Int))}⟩

/-- Robot of the C1 counterexample: deciding at `(0,0)`. -/
def c1Robot : Robot := ⟨((0 : Int), (0 : Int)), []⟩

/-- Claim C1, counterexample on `coop.py`: the agent is in the Deciding
state and its neighbour `(0,1)` holds a ground-truth victim, yet one `move`
relocates the agent onto that cell through the retreat priority without
clearing the grid cell or shrinking the registry — `coop.py`'s rescue
triggers on the known map, not on the ground truth. -/
theorem c1_counterexample :
    c1Robot.path = [] ∧
    c1Env.grid ((0 : Int), (1 : Int)) = VICTIM ∧
    inB 1 2 ((0 : Int), (1 : Int)) = true ∧
    ((0 : Int), (1 : Int)) ∈ options c1Robot.pos ∧
    (coopMove 1 2 (options ((0 : Int), (0 : Int))) c1Env c1Robot).2.pos =
      ((0 : Int), (1 : Int)) ∧
    (coopMove 1 2 (options ((0 : Int), (0 : Int))) c1Env c1Robot).1.grid
      ((0 : Int), (1 : Int)) = VICTIM ∧
    (coopMove 1 2 (options ((0 : Int), (0 : Int))) c1Env c1Robot).1.victims =
      {((0 : Int), (1 : Int))} := by
  refine ⟨rfl, by decide, by decide, by decide, ?_, ?_, ?_⟩ <;> rfl

/-- Claim C1 (amended): in `single.py` the rescue priority fires on the
ground-truth grid exactly as the claim states; in `coop.py` it fires on the
shared known map instead. In either case `move` relocates the agent onto
the first qualifying neighbour in shuffle order, zeroes that grid cell,
discards the position from the victim registry, and updates the known map
from the already-zeroed grid. -/
theorem c1_theorem (rows cols : Nat) (ord ord2 : List Pos) (e : SEnv)
    (rb : SRobot) (e2 : CoopEnv) (rb2 : Robot)
    (hp : rb.path = []) (hperm : ord.Perm (options rb.pos))
    (hp2 : rb2.path = []) (hperm2 : ord2.Perm (options rb2.pos)) :
    ((∃ n ∈ options rb.pos, inB rows cols n = true ∧ e.grid n = VICTIM) →
      ∃ n, n ∈ options rb.pos ∧ inB rows cols n = true ∧ e.grid n = VICTIM ∧
        singleMove rows cols ord e rb =
          some (⟨Function.update e.grid n 0, e.victims.erase n⟩,
            ⟨n, [], updateKnownMap (Function.update e.grid n 0) rows cols n
              rb.known⟩)) ∧
    ((∃ n ∈ options rb2.pos, inB rows cols n = true ∧ e2.known n = VICTIM) →
      ∃ n, n ∈ options rb2.pos ∧ inB rows cols n = true ∧ e2.known n = VICTIM ∧
        coopMove rows cols ord2 e2 rb2 =
          (⟨Function.update e2.grid n 0,
            updateKnownMap (Function.update e2.grid n 0) rows cols n e2.known,
            e2.victims.erase n⟩, ⟨n, []⟩)) := by
  constructor
  · rintro ⟨m, hm, hmb, hmv⟩
    obtain ⟨n, hfind⟩ := find?_of_exists
      (p := fun x => inB rows cols x && decide (e.grid x = VICTIM))
      ⟨m, hperm.mem_iff.mpr hm, by simp [hmb, hmv]⟩
    have hprop := List.find?_some hfind
    rw [Bool.and_eq_true, decide_eq_true_eq] at hprop
    exact ⟨n, hperm.mem_iff.mp (List.mem_of_find?_eq_some hfind), hprop.1,
      hprop.2, singleMove_rescue hp hfind⟩
  · rintro ⟨m, hm, hmb, hmv⟩
    obtain ⟨n, hfind⟩ := find?_of_exists
      (p := fun x => inB rows cols x && decide (e2.known x = VICTIM))
      ⟨m, hperm2.mem_iff.mpr hm, by simp [hmb, hmv]⟩
    have hprop := List.find?_some hfind
    rw [Bool.and_eq_true, decide_eq_true_eq] at hprop
    exact ⟨n, hperm2.mem_iff.mp (List.mem_of_find?_eq_some hfind), hprop.1,
      hprop.2, coopMove_rescue hp2 hfind⟩

/-- Known map for the C1 and C8 witnesses: origin traversed, victim cell
revealed as such. -/
def c1WKnown : Pos → Int := fun p =>
  if p = ((0 : Int), (0 : Int)) then TRAVERSED
  else if p = ((0 : Int), (1 : Int)) then VICTIM
  else UNKNOWN

theorem c1_witness :
    (∃ n ∈ options ((0 : Int), (0 : Int)), inB 1 2 n = true ∧
      exGrid1 n = VICTIM) ∧
    ((∃ n ∈ options ((0 : Int), (0 : Int)), inB 1 2 n = true ∧
        exGrid1 n = VICTIM) →
      ∃ n, n ∈ options ((0 : Int), (0 : Int)) ∧ inB 1 2 n = true ∧
        exGrid1 n = VICTIM ∧
        singleMove 1 2 (options ((0 : Int), (0 : Int)))
          ⟨exGrid1, {((0 : Int), (1 : Int))}⟩
          ⟨((0 : Int), (0 : Int)), [], c1WKnown⟩ =
          some (⟨Function.update exGrid1 n 0,
            ({((0 : Int), (1 : Int))} : Finset Pos).erase n⟩,
            ⟨n, [], updateKnownMap (Function.update exGrid1 n 0) 1 2 n
              c1WKnown⟩)) :=
  ⟨by decide,
    (c1_theorem 1 2 (options ((0 : Int), (0 : Int)))
      (options ((0 : Int), (0 : Int)))
      ⟨exGrid1, {((0 : Int), (1 : Int))}⟩
      ⟨((0 : Int), (0 : Int)), [], c1WKnown⟩
      ⟨exGrid1, c1WKnown, {((0 : Int), (1 : Int))}⟩
      ⟨((0 : Int), (0 : Int)), []⟩
      rfl (List.Perm.refl _) rfl (List.Perm.refl _)).1⟩

/-- Environment of the C8 counterexample: the grid holds no victim anywhere
and the registry is empty, but the shared known map stales a `VICTIM`
reading at `(0,1)`. -/
def c8Env : CoopEnv := ⟨c4Grid, c1WKnown, ∅⟩

/-- Robot of the C8 counterexample: deciding at `(0,0)`. -/
def c8Robot : Robot := ⟨((0 : Int), (0 : Int)), []⟩

/-- Claim C8, counterexample on `coop.py`: a rescue fires on a cell whose
state is not `Target` (the ground truth is `FREE`), silently zeroes the
non-target cell and leaves the registry size unchanged — no
`InvalidOperation` failure exists, and the registry does not decrease by
one. -/
theorem c8_counterexample :
    c8Env.grid ((0 : Int), (1 : Int)) = FREE ∧
    c8Env.victims.card = 0 ∧
    (coopMove 1 2 (options ((0 : Int), (0 : Int))) c8Env c8Robot).2.pos =
      ((0 : Int), (1 : Int)) ∧
    (coopMove 1 2 (options ((0 : Int), (0 : Int))) c8Env c8Robot).1.grid
      ((0 : Int), (1 : Int)) = FREE ∧
    (coopMove 1 2 (options ((0 : Int), (0 : Int))) c8Env c8Robot).1.victims.card
      = 0 := by
  refine ⟨by decide, by decide, ?_, ?_, ?_⟩ <;> rfl

/-- Claim C8 (amended): clearing a target is inlined in `move` and guarded
by the scan condition itself — the ground-truth grid in `single.py`, the
shared known map in `coop.py`. The fired rescue sets the cell to `Free`
(`0`) and discards the position from the registry, whose size decreases by
exactly one precisely when the position was registered; there is no
`InvalidOperation` failure path, so a `coop.py` rescue on a stale known-map
`Target` silently zeroes the cell and leaves the registry unchanged. -/
theorem c8_theorem (rows cols : Nat) (ord ord2 : List Pos) (e : SEnv)
    (rb : SRobot) (e2 : CoopEnv) (rb2 : Robot) (n m : Pos)
    (hp : rb.path = []) (hp2 : rb2.path = [])
    (hfind : ord.find? (fun x => inB rows cols x && decide (e.grid x = VICTIM)) =
      some n)
    (hfind2 : ord2.find? (fun x => inB rows cols x &&
      decide (e2.known x = VICTIM)) = some m) :
    (e.grid n = VICTIM ∧
      singleMove rows cols ord e rb =
        some (⟨Function.update e.grid n 0, e.victims.erase n⟩,
          ⟨n, [], updateKnownMap (Function.update e.grid n 0) rows cols n
            rb.known⟩) ∧
      Function.update e.grid n 0 n = FREE ∧
      (n ∈ e.victims → (e.victims.erase n).card + 1 = e.victims.card)) ∧
    (e2.known m = VICTIM ∧
      coopMove rows cols ord2 e2 rb2 =
        (⟨Function.update e2.grid m 0,
          updateKnownMap (Function.update e2.grid m 0) rows cols m e2.known,
          e2.victims.erase m⟩, ⟨m, []⟩) ∧
      Function.update e2.grid m 0 m = FREE ∧
      (m ∈ e2.victims → (e2.victims.erase m).card + 1 = e2.victims.card)) := by
  have hprop := List.find?_some hfind
  rw [Bool.and_eq_true, decide_eq_true_eq] at hprop
  have hprop2 := List.find?_some hfind2
  rw [Bool.and_eq_true, decide_eq_true_eq] at hprop2
  refine ⟨⟨hprop.2, singleMove_rescue hp hfind, ?_, ?_⟩,
    ⟨hprop2.2, coopMove_rescue hp2 hfind2, ?_, ?_⟩⟩
  · rw [Function.update_same]
    rfl
  · intro hn
    rw [Finset.card_erase_of_mem hn]
    have : 0 < e.victims.card := Finset.card_pos.mpr ⟨n, hn⟩
    omega
  · rw [Function.update_same]
    rfl
  · intro hm
    rw [Finset.card_erase_of_mem hm]
    have : 0 < e2.victims.card := Finset.card_pos.mpr ⟨m, hm⟩
    omega

theorem c8_witness :
    exGrid1 ((0 : Int), (1 : Int)) = VICTIM ∧
    singleMove 1 2 (options ((0 : Int), (0 : Int)))
        ⟨exGrid1, {((0 : Int), (1 : Int))}⟩
        ⟨((0 : Int), (0 : Int)), [], c1WKnown⟩ =
      some (⟨Function.update exGrid1 ((0 : Int), (1 : Int)) 0,
        ({((0 : Int), (1 : Int))} : Finset Pos).erase ((0 : Int), (1 : Int))⟩,
        ⟨((0 : Int), (1 : Int)), [],
          updateKnownMap (Function.update exGrid1 ((0 : Int), (1 : Int)) 0)
            1 2 ((0 : Int), (1 : Int)) c1WKnown⟩) ∧
    Function.update exGrid1 ((0 : Int), (1 : Int)) 0 ((0 : Int), (1 : Int)) =
      FREE ∧
    (((0 : Int), (1 : Int)) ∈ ({((0 : Int), (1 : Int))} : Finset Pos) →
      (({((0 : Int), (1 : Int))} : Finset Pos).erase
        ((0 : Int), (1 : Int))).card + 1 =
        ({((0 : Int), (1 : Int))} : Finset Pos).card) :=
  (c8_theorem 1 2 (options ((0 : Int), (0 : Int)))
    (options ((0 : Int), (0 : Int)))
    ⟨exGrid1, {((0 : Int), (1 : Int))}⟩
    ⟨((0 : Int), (0 : Int)), [], c1WKnown⟩
    ⟨exGrid1, c1WKnown, {((0 : Int), (1 : Int))}⟩
    ⟨((0 : Int), (0 : Int)), []⟩
    ((0 : Int), (1 : Int)) ((0 : Int), (1 : Int))
    rfl rfl (by decide) (by decide)).1

/-- Ground truth for the C2 counterexample: a wall at `(0,1)`. -/
def c2Grid : Pos → Int := fun p =>
  if p = ((0 : Int), (1 : Int)) then OBSTACLE else FREE

/-- Known map for the C2 counterexample: the wall has been revealed. -/
def c2Known : Pos → Int := fun p =>
  if p = ((0 : Int), (0 : Int)) then TRAVERSED
  else if p = ((0 : Int), (1 : Int)) then OBSTACLE
  else UNKNOWN

/-- Environment of the C2 counterexample. -/
def c2Env : SEnv := ⟨c2Grid, ∅⟩

/-- Robot of the C2 counterexample: its stale plan still walks into the
revealed wall. -/
def c2Robot : SRobot := ⟨((0 : Int), (0 : Int)), [((0 : Int), (1 : Int))], c2Known⟩

/-- Claim C2, counterexample on `single.py`: the popped queued position is
known to be `Obstacle` and no fresh frontier path exists, yet `move` does
not discard the path and fall through to the priority decisions (which
would leave the agent at `(0,0)`) — it moves the agent onto the known
obstacle at `(0,1)`. -/
theorem c2_counterexample :
    c2Robot.known ((0 : Int), (1 : Int)) = OBSTACLE ∧
    c2Robot.path = [((0 : Int), (1 : Int))] ∧
    singleBfs c2Known 1 2 ((0 : Int), (0 : Int)) = none ∧
    Option.map (fun s : SEnv × SRobot => s.2.pos)
      (singleMove 1 2 (options ((0 : Int), (0 : Int))) c2Env c2Robot) =
      some ((0 : Int), (1 : Int)) := by
  refine ⟨by decide, rfl, by decide, ?_⟩
  rfl

/-- The lookahead drop of `coop.py`'s path following: remove the next queued
position when the known map reports it `VICTIM` or `OBSTACLE`. -/
def lookaheadDrop (k : Pos → Int) : List Pos → List Pos
  | [] => []
  | nn :: rest2 => if k nn = VICTIM ∨ k nn = OBSTACLE then rest2 else nn :: rest2

/-- Claim C2 (amended): with a non-empty planned path, `coop.py`'s `move`
pops the next queued position and moves there unconditionally (no staleness
check on the popped position), updates the known map, and drops only the
following queued position when the updated map reports it `Victim` or
`Obstacle`; `single.py`'s `move` double-checks the popped position against
`Obstacle` only — when it is one it re-runs the frontier search, replacing
the whole remaining path by the fresh tail (taking its first step this
tick), and when replanning fails it walks onto the obstacle; in no case
does either variant discard the path and fall through to the priority
decisions in the same tick. -/
theorem c2_theorem (rows cols : Nat) (ord : List Pos) (e2 : CoopEnv)
    (rb2 : Robot) (e : SEnv) (rb : SRobot) (next : Pos) (rest : List Pos)
    (next' : Pos) (rest' : List Pos)
    (hp2 : rb2.path = next :: rest) (hp : rb.path = next' :: rest') :
    (coopMove rows cols ord e2 rb2 =
      (⟨e2.grid, updateKnownMap e2.grid rows cols next e2.known, e2.victims⟩,
        ⟨next, lookaheadDrop (updateKnownMap e2.grid rows cols next e2.known)
          rest⟩)) ∧
    (rb.known next' ≠ OBSTACLE →
      singleMove rows cols ord e rb =
        some (e, ⟨next', rest',
          updateKnownMap e.grid rows cols next' rb.known⟩)) ∧
    (rb.known next' = OBSTACLE →
      singleBfs rb.known rows cols rb.pos = none →
      singleMove rows cols ord e rb =
        some (e, ⟨next', rest',
          updateKnownMap e.grid rows cols next' rb.known⟩)) ∧
    (∀ p n2 r2, rb.known next' = OBSTACLE →
      singleBfs rb.known rows cols rb.pos = some p → p.drop 1 = n2 :: r2 →
      singleMove rows cols ord e rb =
        some (e, ⟨n2, r2, updateKnownMap e.grid rows cols n2 rb.known⟩)) := by
  obtain ⟨pos2, path2⟩ := rb2
  obtain ⟨pos, path, known⟩ := rb
  simp only at hp2 hp
  subst hp2 hp
  refine ⟨?_, ?_, ?_, ?_⟩
  · cases rest with
    | nil => rfl
    | cons nn rest2 => rfl
  · intro hob
    simp only [singleMove]
    rw [if_neg hob]
  · intro hob hbfs
    simp only [singleMove]
    rw [if_pos hob, hbfs]
  · intro p n2 r2 hob hbfs hdrop
    simp only [singleMove]
    rw [if_pos hob, hbfs]
    show (match p.drop 1 with
      | [] => (none : Option (SEnv × SRobot))
      | next2 :: rest2 =>
        some (e, ⟨next2, rest2, updateKnownMap e.grid rows cols next2 known⟩))
      = some (e, ⟨n2, r2, updateKnownMap e.grid rows cols n2 known⟩)
    rw [hdrop]

theorem c2_witness :
    coopMove 1 2 (options ((0 : Int), (0 : Int))) c1Env
        ⟨((0 : Int), (0 : Int)), [((0 : Int), (1 : Int))]⟩ =
      (⟨c1Env.grid,
        updateKnownMap c1Env.grid 1 2 ((0 : Int), (1 : Int)) c1Env.known,
        c1Env.victims⟩,
        ⟨((0 : Int), (1 : Int)),
          lookaheadDrop
            (updateKnownMap c1Env.grid 1 2 ((0 : Int), (1 : Int)) c1Env.known)
            []⟩) :=
  (c2_theorem 1 2 (options ((0 : Int), (0 : Int))) c1Env
    ⟨((0 : Int), (0 : Int)), [((0 : Int), (1 : Int))]⟩ c2Env c2Robot
    ((0 : Int), (1 : Int)) [] ((0 : Int), (1 : Int)) []
    rfl rfl).1

/-- Known map for the C3 counterexample and witness: origin traversed, the
neighbouring cell unexplored. -/
def c3Known : Pos → Int := fun p =>
  if p = ((0 : Int), (0 : Int)) then TRAVERSED else UNKNOWN

/-- Claim C3, counterexample on `single.py`: the returned sequence includes
the start position as its first element, contradicting the claimed
start-exclusive output (which `coop.py` produces on the same input). -/
theorem c3_counterexample :
    c3Known ((0 : Int), (0 : Int)) = TRAVERSED ∧
    singleBfs c3Known 1 2 ((0 : Int), (0 : Int)) =
      some [((0 : Int), (0 : Int)), ((0 : Int), (1 : Int))] ∧
    coopBfs c3Known 1 2 ((0 : Int), (0 : Int)) = [((0 : Int), (1 : Int))] := by
  refine ⟨by decide, by decide, by decide⟩

/-- Claim C3 (amended): over the 4-connected grid, both searches return an
ordered sequence ending at a cell whose known state is `Unknown`, that cell
being one of the nearest `Unknown` cells in hop count — but `single.py`'s
sequence includes the start, restricted to cells not known `Obstacle`,
while `coop.py`'s excludes the start and is restricted to cells known
neither `Obstacle` nor `Target`; each reports no path exactly when no
`Unknown` cell is so reachable. (Start not itself `Unknown`, as at every
call site.) -/
theorem c3_theorem (known : Pos → Int) (rows cols : Nat) (start : Pos)
    (hb : inB rows cols start = true) (hne : known start ≠ UNKNOWN) :
    ((coopBfs known rows cols start = [] →
      ¬ ∃ w, ChainFrom (coopPass known) rows cols start w ∧
        known (endFrom start w) = UNKNOWN) ∧
     (coopBfs known rows cols start ≠ [] →
      ChainFrom (coopPass known) rows cols start (coopBfs known rows cols start) ∧
      known (endFrom start (coopBfs known rows cols start)) = UNKNOWN ∧
      ∀ w, ChainFrom (coopPass known) rows cols start w →
        known (endFrom start w) = UNKNOWN →
        (coopBfs known rows cols start).length ≤ w.length)) ∧
    ((singleBfs known rows cols start = none →
      ¬ ∃ w, ChainFrom (singlePass known) rows cols start w ∧
        known (endFrom start w) = UNKNOWN) ∧
     (∀ l, singleBfs known rows cols start = some l →
      ∃ w, l = start :: w ∧ ChainFrom (singlePass known) rows cols start w ∧
        known (endFrom start w) = UNKNOWN ∧
        ∀ w', ChainFrom (singlePass known) rows cols start w' →
          known (endFrom start w') = UNKNOWN → w.length ≤ w'.length)) :=
  ⟨coopBfs_correct known rows cols start hne,
    singleBfs_correct known rows cols start⟩

theorem c3_witness :
    inB 1 2 ((0 : Int), (0 : Int)) = true ∧
    c3Known ((0 : Int), (0 : Int)) ≠ UNKNOWN ∧
    (coopBfs c3Known 1 2 ((0 : Int), (0 : Int)) ≠ [] →
      ChainFrom (coopPass c3Known) 1 2 ((0 : Int), (0 : Int))
        (coopBfs c3Known 1 2 ((0 : Int), (0 : Int))) ∧
      c3Known (endFrom ((0 : Int), (0 : Int))
        (coopBfs c3Known 1 2 ((0 : Int), (0 : Int)))) = UNKNOWN ∧
      ∀ w, ChainFrom (coopPass c3Known) 1 2 ((0 : Int), (0 : Int)) w →
        c3Known (endFrom ((0 : Int), (0 : Int)) w) = UNKNOWN →
        (coopBfs c3Known 1 2 ((0 : Int), (0 : Int))).length ≤ w.length) :=
  ⟨by decide, by decide,
    (c3_theorem c3Known 1 2 ((0 : Int), (0 : Int)) (by decide) (by decide)).1.2⟩
